import Mathlib

/-!
A verification development for the game-logic core of `Nim_Game.py`.

The Python source is shallowly embedded: states are lists of naturals,
the numeric domain of the solvers (which mixes integers with
`-math.inf` / `+math.inf`) is `WithBot (WithTop ℤ)`, recursion that the
source performs on ever-shrinking states is realised with an explicit
fuel argument together with fuel-adequacy lemmas, and the fallible parts
of the Monte Carlo solver return `Except`.  Random choices are supplied
by an oracle `ℕ → ℕ` (the stream of values produced by the random number
generator) threaded through the computation by position.
-/

namespace NimGame

/-- Extended integers: `⊥` plays the role of `-math.inf` and `⊤` of
`math.inf` in the Python source, the finite values are integers. -/
abbrev EInt := WithBot (WithTop ℤ)

/-- Embed an integer value into `EInt`. -/
def EInt.ofInt (n : ℤ) : EInt := ((n : WithTop ℤ) : EInt)

/-- Translation of `is_terminal(state)`, i.e. `all(h == 0 for h in state)`. -/
def is_terminal (state : List ℕ) : Bool :=
  state.all fun h => h == 0

/-- Translation of `utility(state, maximizing)`.  The Python line
`return -1 if maximizing else 1 if is_terminal(state) else 0` parses as
`-1 if maximizing else (1 if is_terminal(state) else 0)`, and that parse
is embedded here. -/
def utility (state : List ℕ) (maximizing : Bool) : ℤ :=
  if maximizing then -1 else if is_terminal state then 1 else 0

/-- Translation of `get_successors(state)`: the Python double loop
`for i, cnt in enumerate(state): for take in range(1, cnt + 1)` appending
`(i, take, new_state)` where `new_state` is a copy of `state` with
`new_state[i] -= take`.  The outer `enumerate` is realised by structural
recursion which shifts the pile index of the recursive call by one. -/
def get_successors : List ℕ → List (ℕ × ℕ × List ℕ)
  | [] => []
  | cnt :: rest =>
    ((List.range cnt).map fun t => (0, t + 1, (cnt - (t + 1)) :: rest))
      ++ (get_successors rest).map fun m => (m.1 + 1, m.2.1, cnt :: m.2.2)

/-- The body of the `for` loop of `minimax`: the accumulator is the pair
`(best_val, best_move)`, the update condition is the Python test
`(maximizing and val > best_val) or (not maximizing and val < best_val)`,
and `val` is the value the recursive call assigns to the successor
state. -/
def mmFold (maximizing : Bool) (val : List ℕ → EInt) :
    List (ℕ × ℕ × List ℕ) → EInt × Option (ℕ × ℕ) → EInt × Option (ℕ × ℕ)
  | [], acc => acc
  | m :: rest, acc =>
    mmFold maximizing val rest
      (if (maximizing && decide (acc.1 < val m.2.2))
          || (!maximizing && decide (val m.2.2 < acc.1))
       then (val m.2.2, some (m.1, m.2.1)) else acc)

/-- Fuel-indexed translation of `minimax(state, maximizing)`.  The fuel is
an artifact of the embedding; `minimax` below runs it with provably
sufficient fuel, and `minimaxF_fuel_eq` shows the result does not depend
on the fuel once it exceeds the total token count. -/
def minimaxF : ℕ → List ℕ → Bool → EInt × Option (ℕ × ℕ)
  | fuel, state, maximizing =>
    if is_terminal state then (EInt.ofInt (utility state maximizing), none)
    else
      match fuel with
      | 0 => (EInt.ofInt 0, none)
      | fuel + 1 =>
        mmFold maximizing (fun s => (minimaxF fuel s (!maximizing)).1)
          (get_successors state)
          (if maximizing then ((⊥ : EInt), none) else ((⊤ : EInt), none))

/-- Translation of `minimax(state, maximizing)`, run with sufficient fuel. -/
def minimax (state : List ℕ) (maximizing : Bool) : EInt × Option (ℕ × ℕ) :=
  minimaxF (state.sum + 1) state maximizing

/-- The `for` loop of the maximizing branch of `minimax_ab`: `rec`
performs the recursive call on a successor state with the current bounds,
the accumulator is `(value, best_move)`, `alpha` is updated to
`max(alpha, value)` after each step and the loop breaks when
`alpha >= beta`. -/
def abMaxLoop (rec : List ℕ → EInt → EInt → EInt) :
    List (ℕ × ℕ × List ℕ) → EInt → EInt → EInt × Option (ℕ × ℕ) →
      EInt × Option (ℕ × ℕ)
  | [], _, _, acc => acc
  | m :: rest, alpha, beta, acc =>
    let val := rec m.2.2 alpha beta
    let acc' := if acc.1 < val then (val, some (m.1, m.2.1)) else acc
    let alpha' := max alpha acc'.1
    if beta ≤ alpha' then acc' else abMaxLoop rec rest alpha' beta acc'

/-- The `for` loop of the minimizing branch of `minimax_ab`: dual to
`abMaxLoop`, with `beta` updated to `min(beta, value)` and the loop
breaking when `beta <= alpha`. -/
def abMinLoop (rec : List ℕ → EInt → EInt → EInt) :
    List (ℕ × ℕ × List ℕ) → EInt → EInt → EInt × Option (ℕ × ℕ) →
      EInt × Option (ℕ × ℕ)
  | [], _, _, acc => acc
  | m :: rest, alpha, beta, acc =>
    let val := rec m.2.2 alpha beta
    let acc' := if val < acc.1 then (val, some (m.1, m.2.1)) else acc
    let beta' := min beta acc'.1
    if beta' ≤ alpha then acc' else abMinLoop rec rest alpha beta' acc'

/-- Fuel-indexed translation of
`minimax_ab(state, alpha, beta, maximizing)`. -/
def minimax_abF : ℕ → List ℕ → EInt → EInt → Bool → EInt × Option (ℕ × ℕ)
  | fuel, state, alpha, beta, maximizing =>
    if is_terminal state then (EInt.ofInt (utility state maximizing), none)
    else
      match fuel with
      | 0 => (EInt.ofInt 0, none)
      | fuel + 1 =>
        if maximizing then
          abMaxLoop (fun s a b => (minimax_abF fuel s a b false).1)
            (get_successors state) alpha beta ((⊥ : EInt), none)
        else
          abMinLoop (fun s a b => (minimax_abF fuel s a b true).1)
            (get_successors state) alpha beta ((⊤ : EInt), none)

/-- Translation of `minimax_ab(state, alpha, beta, maximizing)`, run with
sufficient fuel. -/
def minimax_ab (state : List ℕ) (alpha beta : EInt) (maximizing : Bool) :
    EInt × Option (ℕ × ℕ) :=
  minimax_abF (state.sum + 1) state alpha beta maximizing

/-- The Knuth-Moore fail-soft specification relating the value `r`
returned by an alpha-beta search over the window `(a, b)` to the true
minimax value `v`: a result at most `alpha` is an upper bound on the true
value, a result at least `beta` is a lower bound, and a result strictly
inside the window is exact. -/
def kmProp (r v a b : EInt) : Prop :=
  (r ≤ a → v ≤ r) ∧ (b ≤ r → r ≤ v) ∧ (a < r → r < b → v = r)

/-- The nim-sum (xor of all pile counts); used to state the classical
characterisation of the minimax value of a Nim position. -/
def nimSum (s : List ℕ) : ℕ :=
  s.foldr (fun a b => a ^^^ b) 0

/-- Error outcomes of the embedded Monte Carlo solver.  `uctUndefined`
models the ZeroDivisionError or math domain error that evaluating the
UCB1 score would raise, `emptyChoice` the IndexError of
`random.choice([])`, `emptyMax` the ValueError of `max([])`, and
`fuelOut` exhaustion of the embedding fuel (shown unreachable). -/
inductive MErr : Type where
  | uctUndefined : MErr
  | emptyChoice : MErr
  | emptyMax : MErr
  | fuelOut : MErr
deriving DecidableEq

/-- Translation of `random.choice(seq)`: the oracle value `k` selects the
element of index `k % len(seq)`; `none` models the IndexError on an empty
sequence. -/
def pychoice {α : Type} (l : List α) (k : ℕ) : Option α :=
  l.get? (k % l.length)

/-- Fuel-indexed translation of the rollout `simulate(state)`: starting
with `maximizing = True`, play random legal moves until a terminal state
is reached and return `utility(current, not maximizing)` together with
the next oracle position. -/
def simulateF (oracle : ℕ → ℕ) : ℕ → ℕ → List ℕ → Bool → Except MErr (ℤ × ℕ)
  | idx, fuel, current, maximizing =>
    if is_terminal current then .ok (utility current (!maximizing), idx)
    else
      match fuel with
      | 0 => .error .fuelOut
      | fuel + 1 =>
        match pychoice (get_successors current) (oracle idx) with
        | none => .error .emptyChoice
        | some m => simulateF oracle (idx + 1) fuel m.2.2 (!maximizing)

/-- Translation of `simulate(state)`, run with sufficient fuel. -/
def simulate (oracle : ℕ → ℕ) (idx : ℕ) (state : List ℕ) :
    Except MErr (ℤ × ℕ) :=
  simulateF oracle idx (state.sum + 1) state true

/-- Translation of class `MCTSNode`: fields `state`, `children`, `wins`,
`visits`, `untried_moves`, in this order.  The parent pointer is realised
by the recursive structure of `iterateOnce`, which performs the
backpropagation along the selection path on the way back up. -/
inductive MNode : Type where
  | mk : List ℕ → List MNode → ℤ → ℕ → List (ℕ × ℕ × List ℕ) → MNode

/-- Field `state` of an `MCTSNode`. -/
def MNode.state : MNode → List ℕ
  | .mk st _ _ _ _ => st

/-- Field `children` of an `MCTSNode`. -/
def MNode.children : MNode → List MNode
  | .mk _ ch _ _ _ => ch

/-- Field `wins` of an `MCTSNode`. -/
def MNode.wins : MNode → ℤ
  | .mk _ _ w _ _ => w

/-- Field `visits` of an `MCTSNode`. -/
def MNode.visits : MNode → ℕ
  | .mk _ _ _ v _ => v

/-- Field `untried_moves` of an `MCTSNode`. -/
def MNode.untried : MNode → List (ℕ × ℕ × List ℕ)
  | .mk _ _ _ _ u => u

/-- Translation of `MCTSNode.__init__(state)`: zero wins and visits, no
children, `untried_moves = get_successors(state)`. -/
def MNode.init (state : List ℕ) : MNode :=
  .mk state [] 0 0 (get_successors state)

/-- The scan performed by Python `max(seq, key=f)`: returns the index and
value of the first element achieving the maximal key; `i` is the index of
the head of the remaining list, `best` the current leader. -/
def pymaxGo {α K : Type} [LinearOrder K] (f : α → K) :
    List α → ℕ → ℕ × α → ℕ × α
  | [], _, best => best
  | y :: ys, i, best =>
    pymaxGo f ys (i + 1) (if f best.2 < f y then (i, y) else best)

/-- Translation of `max(seq, key=f)`: `none` models the ValueError Python
raises on an empty sequence. -/
def pymax {α K : Type} [LinearOrder K] (f : α → K) : List α → Option (ℕ × α)
  | [] => none
  | x :: xs => some (pymaxGo f xs 1 (0, x))

/-- Translation of `MCTSNode.uct_select`.  Since the UCB1 score
`c.wins / c.visits + sqrt(2 * log(self.visits) / c.visits)` is computed
in floating point, the embedding abstracts it into a key function
`key wins visits parentVisits` into an arbitrary linear order; the claims
settled below hold for every key.  The `none` result models the
ZeroDivisionError (a child with zero visits) or math domain error
(`log(0)` when the node itself has zero visits) the score would raise,
as well as the ValueError of `max` on an empty children list. -/
def uct_select {K : Type} [LinearOrder K] (key : ℤ → ℕ → ℕ → K) (n : MNode) :
    Option (ℕ × {c : MNode // c ∈ n.children}) :=
  if n.visits = 0 ∨ n.children.any fun c => c.visits == 0 then none
  else pymax (fun c => key c.1.wins c.1.visits n.visits) n.children.attach

/-- Fuel-indexed body of one iteration of the `mcts` loop: selection (the
`while` loop is realised by recursion into the child chosen by
`uct_select`), expansion (`untried_moves.pop()` takes the last element),
simulation, and backpropagation (performed on the way out of the
recursion: every node on the path gets `visits += 1` and
`wins += result`).  Returns the updated node, the simulation result, and
the next oracle position.  The fuel bounds the depth of the selection
descent; `iterateOnce` runs it with fuel `sizeOf n`, which is always
sufficient because every selection step descends into a structurally
smaller child. -/
def iterateOnceF {K : Type} [LinearOrder K] (key : ℤ → ℕ → ℕ → K)
    (oracle : ℕ → ℕ) : ℕ → MNode → ℕ → Except MErr (MNode × ℤ × ℕ)
  | 0, _, _ => .error .fuelOut
  | fuel + 1, MNode.mk st ch w v u, idx =>
    if u.isEmpty && !ch.isEmpty then
      match uct_select key (MNode.mk st ch w v u) with
      | none => .error .uctUndefined
      | some (j, c) =>
        match iterateOnceF key oracle fuel c.1 idx with
        | .error e => .error e
        | .ok (c', r, idx') =>
          .ok (MNode.mk st (ch.set j c') (w + r) (v + 1) u, r, idx')
    else
      match u.getLast? with
      | some mv =>
        match simulateF oracle idx (mv.2.2.sum + 1) mv.2.2 true with
        | .error e => .error e
        | .ok (r, idx') =>
          let child := MNode.mk mv.2.2 [] (0 + r) (0 + 1) (get_successors mv.2.2)
          .ok (MNode.mk st (ch ++ [child]) (w + r) (v + 1) u.dropLast, r, idx')
      | none =>
        match simulateF oracle idx (st.sum + 1) st true with
        | .error e => .error e
        | .ok (r, idx') => .ok (MNode.mk st ch (w + r) (v + 1) u, r, idx')

/-- One iteration of the `mcts` loop, run with sufficient fuel: the
selection path only visits nodes whose state has a strictly smaller
token count than their parent's, so the total token count of the node's
state bounds the depth. -/
def iterateOnce {K : Type} [LinearOrder K] (key : ℤ → ℕ → ℕ → K)
    (oracle : ℕ → ℕ) (n : MNode) (idx : ℕ) : Except MErr (MNode × ℤ × ℕ) :=
  iterateOnceF key oracle ((MNode.state n).sum + 1) n idx

/-- The `for _ in range(iter_count)` loop of `mcts`. -/
def mctsLoop {K : Type} [LinearOrder K] (key : ℤ → ℕ → ℕ → K)
    (oracle : ℕ → ℕ) : ℕ → MNode → ℕ → Except MErr (MNode × ℕ)
  | 0, root, idx => .ok (root, idx)
  | k + 1, root, idx =>
    match iterateOnce key oracle root idx with
    | .error e => .error e
    | .ok (root', _, idx') => mctsLoop key oracle k root' idx'

/-- Translation of `mcts(state, iter_count)`: run the iterations from a
fresh root, pick `max(root.children, key=lambda c: c.visits)`, then scan
`get_successors(state)` for the move whose resulting state equals the
best child's state (`.ok none` models the final `return None`). -/
def mcts {K : Type} [LinearOrder K] (key : ℤ → ℕ → ℕ → K) (oracle : ℕ → ℕ)
    (state : List ℕ) (iter_count : ℕ) : Except MErr (Option (ℕ × ℕ)) :=
  match mctsLoop key oracle iter_count (MNode.init state) 0 with
  | .error e => .error e
  | .ok (root, _) =>
    match pymax (fun c : MNode => c.visits) root.children with
    | none => .error .emptyMax
    | some (_, best) =>
      .ok (((get_successors state).find? fun m => m.2.2 == best.state).map
        fun m => (m.1, m.2.1))

/-- Well-formedness of the Monte Carlo search tree between iterations:
every child everywhere has been visited at least once (it was
backpropagated into when it was expanded), a node that has acquired
children has been visited at least once itself, the untried moves are
genuine successors of the node's state, and every child's state has a
strictly smaller token count (it arose from a legal move). -/
inductive Good : MNode → Prop where
  | mk : ∀ {st : List ℕ} {ch : List MNode} {w : ℤ} {v : ℕ}
      {u : List (ℕ × ℕ × List ℕ)},
      (∀ c ∈ ch, 1 ≤ MNode.visits c) → (∀ c ∈ ch, Good c) →
      (ch ≠ [] → 1 ≤ v) →
      (∀ mv ∈ u, mv ∈ get_successors st) →
      (∀ c ∈ ch, (MNode.state c).sum < st.sum) →
      Good (MNode.mk st ch w v u)

theorem EInt.ofInt_lt_ofInt {a b : ℤ} : EInt.ofInt a < EInt.ofInt b ↔ a < b := by
  simp [EInt.ofInt]

theorem EInt.bot_lt_ofInt (n : ℤ) : (⊥ : EInt) < EInt.ofInt n := by
  exact WithBot.bot_lt_coe _

theorem EInt.ofInt_lt_top (n : ℤ) : EInt.ofInt n < (⊤ : EInt) := by
  simp [EInt.ofInt]
  exact WithBot.coe_lt_coe.mpr (WithTop.coe_lt_top _)

theorem EInt.ofInt_ne_bot (n : ℤ) : EInt.ofInt n ≠ (⊥ : EInt) :=
  ne_of_gt (EInt.bot_lt_ofInt n)

theorem EInt.ofInt_ne_top (n : ℤ) : EInt.ofInt n ≠ (⊤ : EInt) :=
  ne_of_lt (EInt.ofInt_lt_top n)

theorem is_terminal_iff {s : List ℕ} : is_terminal s = true ↔ ∀ h ∈ s, h = 0 := by
  simp [is_terminal]

theorem get_successors_eq_nil {s : List ℕ} :
    get_successors s = [] ↔ is_terminal s = true := by
  induction s with
  | nil => simp [get_successors, is_terminal]
  | cons c rest ih =>
    simp only [get_successors, List.append_eq_nil, List.map_eq_nil_iff,
      List.range_eq_nil, is_terminal, List.all_cons, Bool.and_eq_true, beq_iff_eq]
    rw [ih]
    simp [is_terminal]

theorem mem_get_successors {s : List ℕ} {x : ℕ × ℕ × List ℕ} :
    x ∈ get_successors s ↔
      x.1 < s.length ∧ 1 ≤ x.2.1 ∧ x.2.1 ≤ s.getD x.1 0 ∧
        x.2.2 = s.set x.1 (s.getD x.1 0 - x.2.1) := by
  induction s generalizing x with
  | nil => simp [get_successors]
  | cons c rest ih =>
    simp only [get_successors, List.mem_append, List.mem_map, List.mem_range]
    constructor
    · rintro (⟨t', ht', h⟩ | ⟨m, hm, h⟩)
      · subst h
        simp only [List.length_cons, List.getD_cons_zero, List.set_cons_zero]
        exact ⟨by omega, by omega, by omega, by simp⟩
      · subst h
        obtain hm' := ih.mp hm
        simp only [List.length_cons, List.getD_cons_succ, List.set_cons_succ]
        exact ⟨by omega, hm'.2.1, hm'.2.2.1, by rw [hm'.2.2.2]⟩
    · obtain ⟨i, t, ns⟩ := x
      rintro ⟨hi, ht1, ht2, hns⟩
      dsimp only at hi ht1 ht2 hns ⊢
      cases i with
      | zero =>
        left
        simp only [List.getD_cons_zero] at ht2 hns
        simp only [List.set_cons_zero] at hns
        refine ⟨t - 1, by omega, ?_⟩
        have ht : t - 1 + 1 = t := by omega
        rw [ht, hns]
      | succ i =>
        right
        simp only [List.length_cons] at hi
        simp only [List.getD_cons_succ] at ht2 hns
        simp only [List.set_cons_succ] at hns
        refine ⟨(i, t, rest.set i (rest.getD i 0 - t)), ih.mpr ⟨by omega, ht1, ht2, rfl⟩, ?_⟩
        rw [hns]

theorem sum_of_mem_get_successors {s : List ℕ} {x : ℕ × ℕ × List ℕ}
    (hx : x ∈ get_successors s) : 1 ≤ x.2.1 ∧ x.2.2.sum + x.2.1 = s.sum := by
  induction s generalizing x with
  | nil => simp [get_successors] at hx
  | cons c rest ih =>
    simp only [get_successors, List.mem_append, List.mem_map, List.mem_range] at hx
    rcases hx with ⟨t', ht', h⟩ | ⟨m, hm, h⟩
    · subst h
      simp only [List.sum_cons]
      omega
    · subst h
      obtain h' := ih hm
      simp only [List.sum_cons]
      omega

theorem sum_lt_of_mem_get_successors {s : List ℕ} {x : ℕ × ℕ × List ℕ}
    (hx : x ∈ get_successors s) : x.2.2.sum < s.sum := by
  obtain ⟨h1, h2⟩ := sum_of_mem_get_successors hx
  omega

theorem get_successors_ne_nil {s : List ℕ} (hs : is_terminal s = false) :
    get_successors s ≠ [] := by
  intro h
  rw [get_successors_eq_nil.mp h] at hs
  exact Bool.true_eq_false ▸ hs

theorem sum_pos_of_not_terminal {s : List ℕ} (hs : is_terminal s = false) :
    0 < s.sum := by
  by_contra h
  push_neg at h
  have hz : s.sum = 0 := Nat.le_zero.mp h
  have : is_terminal s = true := is_terminal_iff.mpr (by
    intro x hx
    have hx' : x ≤ s.sum := List.single_le_sum (fun y _ => Nat.zero_le y) x hx
    omega)
  rw [this] at hs
  exact Bool.noConfusion hs

theorem minimaxF_of_terminal {fuel : ℕ} {s : List ℕ} {m : Bool}
    (h : is_terminal s = true) :
    minimaxF fuel s m = (EInt.ofInt (utility s m), none) := by
  rw [minimaxF.eq_def]
  simp [h]

theorem minimaxF_succ_of_not_terminal {fuel : ℕ} {s : List ℕ} {m : Bool}
    (h : is_terminal s = false) :
    minimaxF (fuel + 1) s m =
      mmFold m (fun s' => (minimaxF fuel s' (!m)).1) (get_successors s)
        (if m then ((⊥ : EInt), none) else ((⊤ : EInt), none)) := by
  rw [minimaxF.eq_def]
  simp [h]

theorem mmFold_congr {m : Bool} {v1 v2 : List ℕ → EInt}
    {l : List (ℕ × ℕ × List ℕ)} (h : ∀ x ∈ l, v1 x.2.2 = v2 x.2.2) :
    ∀ acc, mmFold m v1 l acc = mmFold m v2 l acc := by
  induction l with
  | nil => intro acc; rfl
  | cons x rest ih =>
    intro acc
    rw [mmFold, mmFold, h x (List.mem_cons_self x rest)]
    exact ih (fun y hy => h y (List.mem_cons_of_mem x hy)) _

theorem minimaxF_fuel_eq :
    ∀ (n : ℕ) {s : List ℕ} {m : Bool} {f1 f2 : ℕ},
      s.sum ≤ n → s.sum < f1 → s.sum < f2 → minimaxF f1 s m = minimaxF f2 s m := by
  intro n
  induction n with
  | zero =>
    intro s m f1 f2 hn _ _
    have hterm : is_terminal s = true := by
      by_contra h
      have := sum_pos_of_not_terminal (Bool.not_eq_true _ ▸ h)
      omega
    rw [minimaxF_of_terminal hterm, minimaxF_of_terminal hterm]
  | succ n ih =>
    intro s m f1 f2 hn h1 h2
    by_cases hterm : is_terminal s = true
    · rw [minimaxF_of_terminal hterm, minimaxF_of_terminal hterm]
    · have hterm' : is_terminal s = false := Bool.not_eq_true _ ▸ hterm
      have hpos := sum_pos_of_not_terminal hterm'
      obtain ⟨g1, rfl⟩ : ∃ g1, f1 = g1 + 1 := ⟨f1 - 1, by omega⟩
      obtain ⟨g2, rfl⟩ : ∃ g2, f2 = g2 + 1 := ⟨f2 - 1, by omega⟩
      rw [minimaxF_succ_of_not_terminal hterm', minimaxF_succ_of_not_terminal hterm']
      refine mmFold_congr (fun x hx => ?_) _
      have hlt := sum_lt_of_mem_get_successors hx
      exact congrArg Prod.fst (ih (by omega) (by omega) (by omega))

theorem minimaxF_eq_minimax {fuel : ℕ} {s : List ℕ} {m : Bool}
    (h : s.sum < fuel) : minimaxF fuel s m = minimax s m :=
  minimaxF_fuel_eq s.sum le_rfl h (Nat.lt_succ_self _)

theorem minimax_of_terminal {s : List ℕ} {m : Bool} (h : is_terminal s = true) :
    minimax s m = (EInt.ofInt (utility s m), none) :=
  minimaxF_of_terminal h

theorem minimax_of_not_terminal {s : List ℕ} {m : Bool} (h : is_terminal s = false) :
    minimax s m =
      mmFold m (fun s' => (minimax s' (!m)).1) (get_successors s)
        (if m then ((⊥ : EInt), none) else ((⊤ : EInt), none)) := by
  rw [minimax, minimaxF_succ_of_not_terminal h]
  refine mmFold_congr (fun x hx => ?_) _
  have hlt := sum_lt_of_mem_get_successors hx
  rw [minimaxF_eq_minimax (by omega)]

theorem if_lt_eq_max {a b : EInt} : (if a < b then b else a) = max a b := by
  rcases le_or_lt b a with h | h
  · simp [not_lt.mpr h, max_eq_left h]
  · simp [h, max_eq_right h.le]

theorem if_lt_eq_min {a b : EInt} : (if b < a then b else a) = min a b := by
  rcases le_or_lt a b with h | h
  · simp [not_lt.mpr h, min_eq_left h]
  · simp [h, min_eq_right h.le]

theorem foldl_max_init (a : EInt) (l : List EInt) : a ≤ l.foldl max a := by
  induction l generalizing a with
  | nil => simp
  | cons x rest ih => exact le_trans (le_max_left a x) (ih _)

theorem le_foldl_max {x : EInt} {l : List EInt} (hx : x ∈ l) (a : EInt) :
    x ≤ l.foldl max a := by
  induction l generalizing a with
  | nil => simp at hx
  | cons y rest ih =>
    rcases List.mem_cons.mp hx with rfl | hx'
    · exact le_trans (le_max_right a x) (foldl_max_init _ _)
    · exact ih hx' _

theorem foldl_max_le {a b : EInt} {l : List EInt} (ha : a ≤ b)
    (hl : ∀ x ∈ l, x ≤ b) : l.foldl max a ≤ b := by
  induction l generalizing a with
  | nil => exact ha
  | cons y rest ih =>
    exact ih (max_le ha (hl y (List.mem_cons_self y rest)))
      (fun x hx => hl x (List.mem_cons_of_mem y hx))

theorem foldl_max_cases (a : EInt) (l : List EInt) :
    l.foldl max a = a ∨ l.foldl max a ∈ l := by
  induction l generalizing a with
  | nil => exact Or.inl rfl
  | cons y rest ih =>
    rcases ih (max a y) with h | h
    · rw [List.foldl_cons]
      rcases le_or_lt y a with hy | hy
      · rw [h, max_eq_left hy]; exact Or.inl rfl
      · rw [h, max_eq_right hy.le]; exact Or.inr (List.mem_cons_self y rest)
    · exact Or.inr (List.mem_cons_of_mem y h)

theorem foldl_min_init (a : EInt) (l : List EInt) : l.foldl min a ≤ a := by
  induction l generalizing a with
  | nil => simp
  | cons x rest ih => exact le_trans (ih _) (min_le_left a x)

theorem foldl_min_le {x : EInt} {l : List EInt} (hx : x ∈ l) (a : EInt) :
    l.foldl min a ≤ x := by
  induction l generalizing a with
  | nil => simp at hx
  | cons y rest ih =>
    rcases List.mem_cons.mp hx with rfl | hx'
    · exact le_trans (foldl_min_init (min a x) rest) (min_le_right a x)
    · exact ih hx' _

theorem le_foldl_min {a b : EInt} {l : List EInt} (ha : b ≤ a)
    (hl : ∀ x ∈ l, b ≤ x) : b ≤ l.foldl min a := by
  induction l generalizing a with
  | nil => exact ha
  | cons y rest ih =>
    exact ih (le_min ha (hl y (List.mem_cons_self y rest)))
      (fun x hx => hl x (List.mem_cons_of_mem y hx))

theorem foldl_min_cases (a : EInt) (l : List EInt) :
    l.foldl min a = a ∨ l.foldl min a ∈ l := by
  induction l generalizing a with
  | nil => exact Or.inl rfl
  | cons y rest ih =>
    rcases ih (min a y) with h | h
    · rw [List.foldl_cons]
      rcases le_or_lt a y with hy | hy
      · rw [h, min_eq_left hy]; exact Or.inl rfl
      · rw [h, min_eq_right hy.le]; exact Or.inr (List.mem_cons_self y rest)
    · exact Or.inr (List.mem_cons_of_mem y h)

theorem mmFold_fst_true (v : List ℕ → EInt) (l : List (ℕ × ℕ × List ℕ)) :
    ∀ acc, (mmFold true v l acc).1 = (l.map fun x => v x.2.2).foldl max acc.1 := by
  induction l with
  | nil => intro acc; rfl
  | cons x rest ih =>
    intro acc
    rw [mmFold, List.map_cons, List.foldl_cons, ← if_lt_eq_max]
    simp only [Bool.true_and, Bool.not_true, Bool.false_and, Bool.or_false,
      decide_eq_true_eq]
    rcases lt_or_ge acc.1 (v x.2.2) with h | h
    · rw [if_pos h, if_pos h, ih]
    · rw [if_neg (not_lt.mpr h), if_neg (not_lt.mpr h), ih]

theorem mmFold_fst_false (v : List ℕ → EInt) (l : List (ℕ × ℕ × List ℕ)) :
    ∀ acc, (mmFold false v l acc).1 = (l.map fun x => v x.2.2).foldl min acc.1 := by
  induction l with
  | nil => intro acc; rfl
  | cons x rest ih =>
    intro acc
    rw [mmFold, List.map_cons, List.foldl_cons, ← if_lt_eq_min]
    simp only [Bool.false_and, Bool.not_false, Bool.true_and, Bool.false_or,
      decide_eq_true_eq]
    rcases lt_or_ge (v x.2.2) acc.1 with h | h
    · rw [if_pos h, if_pos h, ih]
    · rw [if_neg (not_lt.mpr h), if_neg (not_lt.mpr h), ih]

theorem mmFold_none {m : Bool} {v : List ℕ → EInt} {l : List (ℕ × ℕ × List ℕ)} :
    ∀ {acc}, (mmFold m v l acc).2 = none →
      (mmFold m v l acc).1 = acc.1 ∧ acc.2 = none := by
  induction l with
  | nil => intro acc h; exact ⟨rfl, h⟩
  | cons x rest ih =>
    intro acc h
    rw [mmFold] at h ⊢
    by_cases hc : ((m && decide (acc.1 < v x.2.2))
        || (!m && decide (v x.2.2 < acc.1))) = true
    · rw [if_pos hc] at h ⊢
      obtain ⟨_, h2⟩ := ih h
      exact absurd h2 (by simp)
    · rw [if_neg hc] at h ⊢
      exact ih h

theorem mmFold_snd_cases {m : Bool} {v : List ℕ → EInt}
    {l : List (ℕ × ℕ × List ℕ)} :
    ∀ acc, (mmFold m v l acc).2 = acc.2 ∨
      ∃ x ∈ l, (mmFold m v l acc).2 = some (x.1, x.2.1) := by
  induction l with
  | nil => intro acc; exact Or.inl rfl
  | cons x rest ih =>
    intro acc
    rw [mmFold]
    by_cases hc : ((m && decide (acc.1 < v x.2.2))
        || (!m && decide (v x.2.2 < acc.1))) = true
    · rw [if_pos hc]
      rcases ih (v x.2.2, some (x.1, x.2.1)) with h | ⟨y, hy, h⟩
      · exact Or.inr ⟨x, List.mem_cons_self x rest, h⟩
      · exact Or.inr ⟨y, List.mem_cons_of_mem x hy, h⟩
    · rw [if_neg hc]
      rcases ih acc with h | ⟨y, hy, h⟩
      · exact Or.inl h
      · exact Or.inr ⟨y, List.mem_cons_of_mem x hy, h⟩

theorem nimSum_nil : nimSum [] = 0 := rfl

theorem nimSum_cons (c : ℕ) (rest : List ℕ) :
    nimSum (c :: rest) = c ^^^ nimSum rest := rfl

theorem nimSum_terminal {s : List ℕ} (h : is_terminal s = true) : nimSum s = 0 := by
  induction s with
  | nil => rfl
  | cons c rest ih =>
    simp only [is_terminal, List.all_cons, Bool.and_eq_true, beq_iff_eq] at h
    rw [nimSum_cons, h.1, ih (by simp [is_terminal, h.2])]
    simp

theorem EInt.ofInt_le_ofInt {a b : ℤ} : EInt.ofInt a ≤ EInt.ofInt b ↔ a ≤ b := by
  simp [EInt.ofInt]

theorem xor_left_comm (a b c : ℕ) : a ^^^ (b ^^^ c) = b ^^^ (a ^^^ c) := by
  rw [← Nat.xor_assoc, Nat.xor_comm a b, Nat.xor_assoc]

theorem nimSum_of_mem_get_successors {s : List ℕ} {x : ℕ × ℕ × List ℕ}
    (hx : x ∈ get_successors s) :
    nimSum x.2.2 = nimSum s ^^^ s.getD x.1 0 ^^^ (s.getD x.1 0 - x.2.1) := by
  induction s generalizing x with
  | nil => simp [get_successors] at hx
  | cons c rest ih =>
    simp only [get_successors, List.mem_append, List.mem_map, List.mem_range] at hx
    rcases hx with ⟨t', ht', h⟩ | ⟨m, hm, h⟩
    · subst h
      simp only [nimSum_cons, List.getD_cons_zero]
      simp [Nat.xor_assoc, Nat.xor_comm, xor_left_comm, Nat.xor_cancel_left]
    · subst h
      simp only [nimSum_cons, List.getD_cons_succ]
      rw [ih hm]
      simp [Nat.xor_assoc]

theorem nimSum_succ_ne_zero {s : List ℕ} {x : ℕ × ℕ × List ℕ}
    (hx : x ∈ get_successors s) (h0 : nimSum s = 0) : nimSum x.2.2 ≠ 0 := by
  have h := nimSum_of_mem_get_successors hx
  rw [h0, Nat.zero_xor] at h
  rw [h]
  obtain ⟨_, ht1, ht2, _⟩ := mem_get_successors.mp hx
  simp only [ne_eq, Nat.xor_eq_zero]
  omega

theorem exists_bit_pile :
    ∀ {s : List ℕ} {d : ℕ}, Nat.testBit (nimSum s) d = true →
      ∃ i, i < s.length ∧ Nat.testBit (s.getD i 0) d = true := by
  intro s
  induction s with
  | nil => intro d h; simp [nimSum_nil] at h
  | cons c rest ih =>
    intro d h
    rw [nimSum_cons, Nat.testBit_xor] at h
    by_cases hc : Nat.testBit c d = true
    · exact ⟨0, by simp, by simpa using hc⟩
    · have hr : Nat.testBit (nimSum rest) d = true := by
        cases hcb : Nat.testBit c d <;> cases hrb : Nat.testBit (nimSum rest) d <;>
          simp_all
      obtain ⟨i, hi, hb⟩ := ih hr
      exact ⟨i + 1, by simp only [List.length_cons]; omega, by simpa using hb⟩

theorem exists_zeroing_successor {s : List ℕ} (h : nimSum s ≠ 0) :
    ∃ x ∈ get_successors s, nimSum x.2.2 = 0 := by
  obtain ⟨d, hd, hdmax⟩ := Nat.exists_most_significant_bit h
  obtain ⟨i, hi, hbit⟩ := exists_bit_pile hd
  have hx_lt : s.getD i 0 ^^^ nimSum s < s.getD i 0 := by
    refine Nat.lt_of_testBit d ?_ hbit ?_
    · rw [Nat.testBit_xor, hbit, hd]; rfl
    · intro j hj
      rw [Nat.testBit_xor, hdmax j hj]
      cases Nat.testBit (s.getD i 0) j <;> rfl
  have hset : s.set i (s.getD i 0 ^^^ nimSum s) =
      s.set i (s.getD i 0 - (s.getD i 0 - (s.getD i 0 ^^^ nimSum s))) := by
    congr 1
    omega
  have hmem : (i, s.getD i 0 - (s.getD i 0 ^^^ nimSum s),
      s.set i (s.getD i 0 ^^^ nimSum s)) ∈ get_successors s := by
    rw [mem_get_successors]
    refine ⟨hi, ?_, ?_, ?_⟩
    · dsimp only; omega
    · dsimp only; omega
    · dsimp only; exact hset
  refine ⟨_, hmem, ?_⟩
  rw [nimSum_of_mem_get_successors hmem]
  dsimp only
  have harg : s.getD i 0 - (s.getD i 0 - (s.getD i 0 ^^^ nimSum s)) =
      s.getD i 0 ^^^ nimSum s := by omega
  rw [harg, Nat.xor_assoc, Nat.xor_cancel_left, Nat.xor_self]

theorem minimax_value_terminal {s : List ℕ} {m : Bool}
    (hterm : is_terminal s = true) :
    (minimax s m).1 =
      EInt.ofInt (if ((nimSum s = 0) ↔ m = true) then -1 else 1) := by
  rw [minimax_of_terminal hterm]
  have h0 : nimSum s = 0 := nimSum_terminal hterm
  cases m with
  | true => simp [utility, h0]
  | false => simp [utility, hterm, h0]

theorem minimax_value_aux :
    ∀ (n : ℕ) (s : List ℕ) (m : Bool), s.sum ≤ n →
      (minimax s m).1 =
        EInt.ofInt (if ((nimSum s = 0) ↔ m = true) then -1 else 1) := by
  intro n
  induction n with
  | zero =>
    intro s m hn
    have hterm : is_terminal s = true := by
      by_contra h
      have := sum_pos_of_not_terminal (Bool.not_eq_true _ ▸ h)
      omega
    exact minimax_value_terminal hterm
  | succ n ih =>
    intro s m hn
    by_cases hterm : is_terminal s = true
    · exact minimax_value_terminal hterm
    · have hterm' : is_terminal s = false := Bool.not_eq_true _ ▸ hterm
      have hne := get_successors_ne_nil hterm'
      have hvals : ∀ x ∈ get_successors s, (minimax x.2.2 (!m)).1 =
          EInt.ofInt (if ((nimSum x.2.2 = 0) ↔ (!m) = true) then -1 else 1) := by
        intro x hx
        have := sum_lt_of_mem_get_successors hx
        exact ih x.2.2 (!m) (by omega)
      rw [minimax_of_not_terminal hterm']
      cases m with
      | true =>
        rw [mmFold_fst_true]
        simp only [Bool.not_true] at hvals ⊢
        rw [show (if True then ((⊥ : EInt), (none : Option (ℕ × ℕ)))
          else (⊤, none)).1 = (⊥ : EInt) from rfl]
        by_cases h0 : nimSum s = 0
        · have hall : ∀ y ∈ (get_successors s).map
              fun x => (minimax x.2.2 false).1, y = EInt.ofInt (-1) := by
            intro y hy
            obtain ⟨x, hx, rfl⟩ := List.mem_map.mp hy
            rw [hvals x hx]
            have := nimSum_succ_ne_zero hx h0
            simp [this]
          have hnil : (get_successors s).map
              (fun x => (minimax x.2.2 false).1) ≠ [] := by
            simpa using hne
          rcases foldl_max_cases (⊥ : EInt)
              ((get_successors s).map fun x => (minimax x.2.2 false).1) with hbot | hmem
          · obtain ⟨y, hy⟩ := List.exists_mem_of_ne_nil _ hnil
            have h1 := le_foldl_max hy (⊥ : EInt)
            rw [hbot, hall y hy] at h1
            exact absurd h1 (by simp [EInt.ofInt])
          · rw [hall _ hmem]
            simp [h0]
        · obtain ⟨x0, hx0, hx00⟩ := exists_zeroing_successor h0
          have hx0v : (minimax x0.2.2 false).1 = EInt.ofInt 1 := by
            rw [hvals x0 hx0]
            simp [hx00]
          have hge : EInt.ofInt 1 ≤ ((get_successors s).map
              fun x => (minimax x.2.2 false).1).foldl max (⊥ : EInt) := by
            refine le_foldl_max ?_ _
            rw [← hx0v]
            exact List.mem_map.mpr ⟨x0, hx0, rfl⟩
          have hle : ((get_successors s).map
              fun x => (minimax x.2.2 false).1).foldl max (⊥ : EInt) ≤
              EInt.ofInt 1 := by
            refine foldl_max_le (by simp) ?_
            intro y hy
            obtain ⟨x, hx, rfl⟩ := List.mem_map.mp hy
            rw [hvals x hx]
            split
            · rw [EInt.ofInt_le_ofInt]; omega
            · exact le_rfl
          rw [show EInt.ofInt (if ((nimSum s = 0) ↔ True) then -1 else 1) =
            EInt.ofInt 1 by simp [h0]]
          exact le_antisymm hle hge
      | false =>
        rw [mmFold_fst_false]
        simp only [Bool.not_false] at hvals ⊢
        rw [show (if (false : Bool) = true then ((⊥ : EInt), (none : Option (ℕ × ℕ)))
          else (⊤, none)).1 = (⊤ : EInt) from rfl]
        by_cases h0 : nimSum s = 0
        · have hall : ∀ y ∈ (get_successors s).map
              fun x => (minimax x.2.2 true).1, y = EInt.ofInt 1 := by
            intro y hy
            obtain ⟨x, hx, rfl⟩ := List.mem_map.mp hy
            rw [hvals x hx]
            have := nimSum_succ_ne_zero hx h0
            simp [this]
          have hnil : (get_successors s).map
              (fun x => (minimax x.2.2 true).1) ≠ [] := by
            simpa using hne
          rcases foldl_min_cases (⊤ : EInt)
              ((get_successors s).map fun x => (minimax x.2.2 true).1) with htop | hmem
          · obtain ⟨y, hy⟩ := List.exists_mem_of_ne_nil _ hnil
            have h1 := foldl_min_le hy (⊤ : EInt)
            rw [htop, hall y hy] at h1
            exact absurd (top_le_iff.mp h1) (EInt.ofInt_ne_top 1)
          · rw [hall _ hmem]
            simp [h0]
        · obtain ⟨x0, hx0, hx00⟩ := exists_zeroing_successor h0
          have hx0v : (minimax x0.2.2 true).1 = EInt.ofInt (-1) := by
            rw [hvals x0 hx0]
            simp [hx00]
          have hle : ((get_successors s).map
              fun x => (minimax x.2.2 true).1).foldl min (⊤ : EInt) ≤
              EInt.ofInt (-1) := by
            refine foldl_min_le ?_ _
            rw [← hx0v]
            exact List.mem_map.mpr ⟨x0, hx0, rfl⟩
          have hge : EInt.ofInt (-1) ≤ ((get_successors s).map
              fun x => (minimax x.2.2 true).1).foldl min (⊤ : EInt) := by
            refine le_foldl_min (by simp) ?_
            intro y hy
            obtain ⟨x, hx, rfl⟩ := List.mem_map.mp hy
            rw [hvals x hx]
            split
            · exact le_rfl
            · rw [EInt.ofInt_le_ofInt]; omega
          rw [show EInt.ofInt (if ((nimSum s = 0) ↔ (false : Bool) = true) then -1 else 1) =
            EInt.ofInt (-1) by simp [h0]]
          exact le_antisymm hle hge

theorem minimax_value (s : List ℕ) (m : Bool) :
    (minimax s m).1 =
      EInt.ofInt (if ((nimSum s = 0) ↔ m = true) then -1 else 1) :=
  minimax_value_aux s.sum s m le_rfl

theorem minimax_fst_cases (s : List ℕ) (m : Bool) :
    (minimax s m).1 = EInt.ofInt (-1) ∨ (minimax s m).1 = EInt.ofInt 1 := by
  rw [minimax_value]
  split
  · exact Or.inl rfl
  · exact Or.inr rfl

theorem minimax_abF_of_terminal {fuel : ℕ} {s : List ℕ} {a b : EInt} {m : Bool}
    (h : is_terminal s = true) :
    minimax_abF fuel s a b m = (EInt.ofInt (utility s m), none) := by
  rw [minimax_abF.eq_def]
  simp [h]

theorem minimax_abF_succ_true {fuel : ℕ} {s : List ℕ} {a b : EInt}
    (h : is_terminal s = false) :
    minimax_abF (fuel + 1) s a b true =
      abMaxLoop (fun s' a' b' => (minimax_abF fuel s' a' b' false).1)
        (get_successors s) a b ((⊥ : EInt), none) := by
  rw [minimax_abF.eq_def]
  simp [h]

theorem minimax_abF_succ_false {fuel : ℕ} {s : List ℕ} {a b : EInt}
    (h : is_terminal s = false) :
    minimax_abF (fuel + 1) s a b false =
      abMinLoop (fun s' a' b' => (minimax_abF fuel s' a' b' true).1)
        (get_successors s) a b ((⊤ : EInt), none) := by
  rw [minimax_abF.eq_def]
  simp [h]

theorem abMaxLoop_congr {r1 r2 : List ℕ → EInt → EInt → EInt}
    {l : List (ℕ × ℕ × List ℕ)}
    (h : ∀ x ∈ l, ∀ a b, r1 x.2.2 a b = r2 x.2.2 a b) :
    ∀ a b acc, abMaxLoop r1 l a b acc = abMaxLoop r2 l a b acc := by
  induction l with
  | nil => intro a b acc; rfl
  | cons x rest ih =>
    intro a b acc
    rw [abMaxLoop, abMaxLoop]
    simp only [h x (List.mem_cons_self x rest)]
    split <;> split <;>
      first
        | rfl
        | exact ih (fun y hy => h y (List.mem_cons_of_mem x hy)) _ _ _

theorem abMinLoop_congr {r1 r2 : List ℕ → EInt → EInt → EInt}
    {l : List (ℕ × ℕ × List ℕ)}
    (h : ∀ x ∈ l, ∀ a b, r1 x.2.2 a b = r2 x.2.2 a b) :
    ∀ a b acc, abMinLoop r1 l a b acc = abMinLoop r2 l a b acc := by
  induction l with
  | nil => intro a b acc; rfl
  | cons x rest ih =>
    intro a b acc
    rw [abMinLoop, abMinLoop]
    simp only [h x (List.mem_cons_self x rest)]
    split <;> split <;>
      first
        | rfl
        | exact ih (fun y hy => h y (List.mem_cons_of_mem x hy)) _ _ _

theorem minimax_abF_fuel_eq :
    ∀ (n : ℕ) {s : List ℕ} {a b : EInt} {m : Bool} {f1 f2 : ℕ},
      s.sum ≤ n → s.sum < f1 → s.sum < f2 →
        minimax_abF f1 s a b m = minimax_abF f2 s a b m := by
  intro n
  induction n with
  | zero =>
    intro s a b m f1 f2 hn _ _
    have hterm : is_terminal s = true := by
      by_contra h
      have := sum_pos_of_not_terminal (Bool.not_eq_true _ ▸ h)
      omega
    rw [minimax_abF_of_terminal hterm, minimax_abF_of_terminal hterm]
  | succ n ih =>
    intro s a b m f1 f2 hn h1 h2
    by_cases hterm : is_terminal s = true
    · rw [minimax_abF_of_terminal hterm, minimax_abF_of_terminal hterm]
    · have hterm' : is_terminal s = false := Bool.not_eq_true _ ▸ hterm
      have hpos := sum_pos_of_not_terminal hterm'
      obtain ⟨g1, rfl⟩ : ∃ g1, f1 = g1 + 1 := ⟨f1 - 1, by omega⟩
      obtain ⟨g2, rfl⟩ : ∃ g2, f2 = g2 + 1 := ⟨f2 - 1, by omega⟩
      cases m with
      | true =>
        rw [minimax_abF_succ_true hterm', minimax_abF_succ_true hterm']
        refine abMaxLoop_congr (fun x hx a' b' => ?_) _ _ _
        have hlt := sum_lt_of_mem_get_successors hx
        exact congrArg Prod.fst (ih (by omega) (by omega) (by omega))
      | false =>
        rw [minimax_abF_succ_false hterm', minimax_abF_succ_false hterm']
        refine abMinLoop_congr (fun x hx a' b' => ?_) _ _ _
        have hlt := sum_lt_of_mem_get_successors hx
        exact congrArg Prod.fst (ih (by omega) (by omega) (by omega))

theorem minimax_abF_eq_minimax_ab {fuel : ℕ} {s : List ℕ} {a b : EInt}
    {m : Bool} (h : s.sum < fuel) :
    minimax_abF fuel s a b m = minimax_ab s a b m :=
  minimax_abF_fuel_eq s.sum le_rfl h (Nat.lt_succ_self _)

theorem minimax_ab_of_terminal {s : List ℕ} {a b : EInt} {m : Bool}
    (h : is_terminal s = true) :
    minimax_ab s a b m = (EInt.ofInt (utility s m), none) :=
  minimax_abF_of_terminal h

theorem minimax_ab_true_eq {s : List ℕ} {a b : EInt}
    (h : is_terminal s = false) :
    minimax_ab s a b true =
      abMaxLoop (fun s' a' b' => (minimax_ab s' a' b' false).1)
        (get_successors s) a b ((⊥ : EInt), none) := by
  rw [minimax_ab, minimax_abF_succ_true h]
  refine abMaxLoop_congr (fun x hx a' b' => ?_) _ _ _
  have hlt := sum_lt_of_mem_get_successors hx
  rw [minimax_abF_eq_minimax_ab (by omega)]

theorem minimax_ab_false_eq {s : List ℕ} {a b : EInt}
    (h : is_terminal s = false) :
    minimax_ab s a b false =
      abMinLoop (fun s' a' b' => (minimax_ab s' a' b' true).1)
        (get_successors s) a b ((⊤ : EInt), none) := by
  rw [minimax_ab, minimax_abF_succ_false h]
  refine abMinLoop_congr (fun x hx a' b' => ?_) _ _ _
  have hlt := sum_lt_of_mem_get_successors hx
  rw [minimax_abF_eq_minimax_ab (by omega)]

theorem abMaxLoop_fst_ge (rec : List ℕ → EInt → EInt → EInt)
    (l : List (ℕ × ℕ × List ℕ)) :
    ∀ a b acc, acc.1 ≤ (abMaxLoop rec l a b acc).1 := by
  induction l with
  | nil => intro a b acc; exact le_rfl
  | cons x rest ih =>
    intro a b acc
    rw [abMaxLoop]
    split <;> split
    · exact le_of_lt (by assumption)
    · exact le_trans (le_of_lt (by assumption)) (ih _ _ _)
    · exact le_rfl
    · exact ih _ _ _

theorem abMinLoop_fst_le (rec : List ℕ → EInt → EInt → EInt)
    (l : List (ℕ × ℕ × List ℕ)) :
    ∀ a b acc, (abMinLoop rec l a b acc).1 ≤ acc.1 := by
  induction l with
  | nil => intro a b acc; exact le_rfl
  | cons x rest ih =>
    intro a b acc
    rw [abMinLoop]
    split <;> split
    · exact le_of_lt (by assumption)
    · exact le_trans (ih _ _ _) (le_of_lt (by assumption))
    · exact le_rfl
    · exact ih _ _ _

theorem foldl_maxvf_shift (vf : List ℕ → EInt) (l : List (ℕ × ℕ × List ℕ)) :
    ∀ s : EInt, l.foldl (fun w x => max w (vf x.2.2)) s =
      max s (l.foldl (fun w x => max w (vf x.2.2)) ⊥) := by
  induction l with
  | nil => intro s; simp
  | cons x rest ih =>
    intro s
    rw [List.foldl_cons, List.foldl_cons, ih, ih (max ⊥ (vf x.2.2))]
    simp [max_assoc]

theorem foldl_minvf_shift (vf : List ℕ → EInt) (l : List (ℕ × ℕ × List ℕ)) :
    ∀ s : EInt, l.foldl (fun w x => min w (vf x.2.2)) s =
      min s (l.foldl (fun w x => min w (vf x.2.2)) ⊤) := by
  induction l with
  | nil => intro s; simp
  | cons x rest ih =>
    intro s
    rw [List.foldl_cons, List.foldl_cons, ih, ih (min ⊤ (vf x.2.2))]
    simp [min_assoc]

theorem abMaxLoop_km (rec : List ℕ → EInt → EInt → EInt) (vf : List ℕ → EInt) :
    ∀ (l : List (ℕ × ℕ × List ℕ)),
      (∀ x ∈ l, ∀ a b : EInt, a < b → kmProp (rec x.2.2 a b) (vf x.2.2) a b) →
      ∀ (a b : EInt) (acc : EInt × Option (ℕ × ℕ)), acc.1 ≤ a → a < b →
        kmProp (abMaxLoop rec l a b acc).1
          (l.foldl (fun w x => max w (vf x.2.2)) acc.1) a b := by
  intro l
  induction l with
  | nil =>
    intro _ a b acc hacc hab
    exact ⟨fun _ => le_rfl, fun _ => le_rfl, fun _ _ => rfl⟩
  | cons x rest ih =>
    intro hrec a b acc hacc hab
    have hx := hrec x (List.mem_cons_self x rest) a b hab
    rw [abMaxLoop, List.foldl_cons]
    set val := rec x.2.2 a b with hvaldef
    set acc' := if acc.1 < val then (val, some (x.1, x.2.1)) else acc with haccdef
    have hacc'1 : acc'.1 = max acc.1 val := by
      rw [haccdef, apply_ite Prod.fst]
      exact if_lt_eq_max
    have haccle : acc.1 ≤ acc'.1 := by rw [hacc'1]; exact le_max_left _ _
    have hvalle : val ≤ acc'.1 := by rw [hacc'1]; exact le_max_right _ _
    set M := rest.foldl (fun w x => max w (vf x.2.2)) (⊥ : EInt) with hMdef
    have htv : rest.foldl (fun w x => max w (vf x.2.2)) (max acc.1 (vf x.2.2)) =
        max (max acc.1 (vf x.2.2)) M := foldl_maxvf_shift vf rest _
    rw [htv]
    by_cases hbr : b ≤ max a acc'.1
    · rw [if_pos hbr]
      have hbacc : b ≤ acc'.1 := by
        rcases le_max_iff.mp hbr with h | h
        · exact absurd (lt_of_lt_of_le hab h) (lt_irrefl a)
        · exact h
      have hbval : b ≤ val := by
        rw [hacc'1] at hbacc
        rcases le_max_iff.mp hbacc with h | h
        · exact absurd (lt_of_lt_of_le hab (le_trans h hacc)) (lt_irrefl a)
        · exact h
      refine ⟨?_, ?_, ?_⟩
      · intro h1
        exact absurd (lt_of_lt_of_le hab (le_trans hbacc h1)) (lt_irrefl a)
      · intro _
        have hvvf : val ≤ vf x.2.2 := hx.2.1 hbval
        calc acc'.1 = max acc.1 val := hacc'1
          _ ≤ max acc.1 (vf x.2.2) := max_le_max le_rfl hvvf
          _ ≤ max (max acc.1 (vf x.2.2)) M := le_max_left _ _
      · intro _ hlt
        exact absurd (lt_of_le_of_lt hbacc hlt) (lt_irrefl b)
    · rw [if_neg hbr]
      have halphab : max a acc'.1 < b := not_le.mp hbr
      have hIH := ih (fun y hy => hrec y (List.mem_cons_of_mem x hy))
        (max a acc'.1) b acc' (le_max_right _ _) halphab
      have htvr : rest.foldl (fun w x => max w (vf x.2.2)) acc'.1 =
          max acc'.1 M := foldl_maxvf_shift vf rest _
      rw [htvr] at hIH
      set r := (abMaxLoop rec rest (max a acc'.1) b acc').1 with hrdef
      have hmono : acc'.1 ≤ r := abMaxLoop_fst_ge rec rest _ _ _
      refine ⟨?_, ?_, ?_⟩
      · intro h1
        have h1' : r ≤ max a acc'.1 := le_trans h1 (le_max_left _ _)
        have htvle := hIH.1 h1'
        have hacc1r : acc.1 ≤ r := le_trans haccle (le_trans (le_max_left _ _) htvle)
        have hMr : M ≤ r := le_trans (le_max_right _ _) htvle
        have hvalr : val ≤ r := le_trans hvalle hmono
        have hvfr : vf x.2.2 ≤ r := le_trans (hx.1 (le_trans hvalr h1)) hvalr
        exact max_le (max_le hacc1r hvfr) hMr
      · intro hb
        have hrle := hIH.2.1 hb
        rcases le_max_iff.mp hrle with h | h
        · have hreq : r = acc'.1 := le_antisymm h hmono
          have hbval : b ≤ val := by
            rw [hreq, hacc'1] at hb
            rcases le_max_iff.mp hb with h' | h'
            · exact absurd (lt_of_lt_of_le hab (le_trans h' hacc)) (lt_irrefl a)
            · exact h'
          have hrval : r ≤ val := by
            rw [hreq, hacc'1]
            rcases max_choice acc.1 val with h' | h'
            · rw [h']
              exact le_trans hacc (le_of_lt (lt_of_lt_of_le hab hbval))
            · rw [h']
          have hvvf : val ≤ vf x.2.2 := hx.2.1 hbval
          exact le_trans (le_trans hrval hvvf)
            (le_trans (le_max_right _ _) (le_max_left _ _))
        · exact le_trans h (le_max_right _ _)
      · intro ha hbb
        by_cases hra : r ≤ max a acc'.1
        · have hreq : r = acc'.1 := by
            rcases le_max_iff.mp hra with h | h
            · exact absurd (lt_of_lt_of_le ha h) (lt_irrefl a)
            · exact le_antisymm h hmono
          have hrval : r = val := by
            rw [hreq, hacc'1]
            rcases max_choice acc.1 val with h' | h'
            · rw [hreq, hacc'1, h'] at ha
              exact absurd (lt_of_le_of_lt hacc ha) (lt_irrefl acc.1)
            · rw [h']
          have hvf : vf x.2.2 = val := by
            refine hx.2.2 ?_ ?_
            · rw [← hrval]; exact ha
            · rw [← hrval]; exact hbb
          have htvle := hIH.1 (by rw [hreq]; exact le_max_right _ _)
          have hMr : M ≤ r := le_trans (le_max_right _ _) htvle
          have hacc1r : acc.1 ≤ r := by rw [hreq, hacc'1]; exact le_max_left _ _
          refine le_antisymm ?_ ?_
          · refine max_le (max_le hacc1r ?_) hMr
            rw [hvf, ← hrval]
          · rw [← hvf] at hrval
            rw [hrval]
            exact le_trans (le_max_right _ _) (le_max_left _ _)
        · have halpha' : max a acc'.1 < r := not_le.mp hra
          have htveq := hIH.2.2 halpha' hbb
          have hacc'r : acc'.1 ≤ r := hmono
          have hMr : M ≤ r := by
            rw [← htveq]; exact le_max_right _ _
          have hvalb : val < b := by
            by_contra hvb
            push_neg at hvb
            exact hbr (le_trans hvb (le_trans hvalle (le_max_right _ _)))
          have hvfler : vf x.2.2 ≤ r := by
            rcases le_or_lt val a with hv | hv
            · exact le_trans (hx.1 hv) (le_trans hv (le_of_lt ha))
            · rw [hx.2.2 hv hvalb]
              exact le_trans hvalle hacc'r
          refine le_antisymm ?_ ?_
          · exact max_le (max_le (le_trans haccle hacc'r) hvfler) hMr
          · rcases le_max_iff.mp (le_of_eq htveq.symm) with h | h
            · have hrval : r ≤ val := by
                rw [hacc'1] at h
                rcases le_max_iff.mp h with h' | h'
                · exact absurd (lt_of_le_of_lt h' (lt_of_le_of_lt hacc ha))
                    (lt_irrefl r)
                · exact h'
              have hvala : a < val := lt_of_lt_of_le ha hrval
              rw [← hx.2.2 hvala hvalb] at hrval
              exact le_trans hrval (le_trans (le_max_right _ _) (le_max_left _ _))
            · exact le_trans h (le_max_right _ _)

theorem abMinLoop_km (rec : List ℕ → EInt → EInt → EInt) (vf : List ℕ → EInt) :
    ∀ (l : List (ℕ × ℕ × List ℕ)),
      (∀ x ∈ l, ∀ a b : EInt, a < b → kmProp (rec x.2.2 a b) (vf x.2.2) a b) →
      ∀ (a b : EInt) (acc : EInt × Option (ℕ × ℕ)), b ≤ acc.1 → a < b →
        kmProp (abMinLoop rec l a b acc).1
          (l.foldl (fun w x => min w (vf x.2.2)) acc.1) a b := by
  intro l
  induction l with
  | nil =>
    intro _ a b acc hacc hab
    exact ⟨fun _ => le_rfl, fun _ => le_rfl, fun _ _ => rfl⟩
  | cons x rest ih =>
    intro hrec a b acc hacc hab
    have hx := hrec x (List.mem_cons_self x rest) a b hab
    rw [abMinLoop, List.foldl_cons]
    set val := rec x.2.2 a b with hvaldef
    set acc' := if val < acc.1 then (val, some (x.1, x.2.1)) else acc with haccdef
    have hacc'1 : acc'.1 = min acc.1 val := by
      rw [haccdef, apply_ite Prod.fst]
      exact if_lt_eq_min
    have haccle : acc'.1 ≤ acc.1 := by rw [hacc'1]; exact min_le_left _ _
    have hvalle : acc'.1 ≤ val := by rw [hacc'1]; exact min_le_right _ _
    set M := rest.foldl (fun w x => min w (vf x.2.2)) (⊤ : EInt) with hMdef
    have htv : rest.foldl (fun w x => min w (vf x.2.2)) (min acc.1 (vf x.2.2)) =
        min (min acc.1 (vf x.2.2)) M := foldl_minvf_shift vf rest _
    rw [htv]
    by_cases hbr : min b acc'.1 ≤ a
    · rw [if_pos hbr]
      have hbacc : acc'.1 ≤ a := by
        rcases min_le_iff.mp hbr with h | h
        · exact absurd (lt_of_lt_of_le hab h) (lt_irrefl a)
        · exact h
      have hbval : val ≤ a := by
        rw [hacc'1] at hbacc
        rcases min_le_iff.mp hbacc with h | h
        · exact absurd (lt_of_lt_of_le hab (le_trans hacc h)) (lt_irrefl a)
        · exact h
      refine ⟨?_, ?_, ?_⟩
      · intro _
        have hvvf : vf x.2.2 ≤ val := hx.1 hbval
        calc min (min acc.1 (vf x.2.2)) M
            ≤ min acc.1 (vf x.2.2) := min_le_left _ _
          _ ≤ vf x.2.2 := min_le_right _ _
          _ ≤ val := hvvf
          _ = acc'.1 := by
              rw [hacc'1, min_eq_right (le_trans hbval (le_trans (le_of_lt hab) hacc))]
      · intro hbge
        exact absurd (lt_of_lt_of_le hab (le_trans hbge hbacc)) (lt_irrefl a)
      · intro hgt _
        exact absurd (lt_of_lt_of_le hgt hbacc) (lt_irrefl a)
    · rw [if_neg hbr]
      have halphab : a < min b acc'.1 := not_le.mp hbr
      have hIH := ih (fun y hy => hrec y (List.mem_cons_of_mem x hy))
        a (min b acc'.1) acc' (min_le_right _ _) halphab
      have htvr : rest.foldl (fun w x => min w (vf x.2.2)) acc'.1 =
          min acc'.1 M := foldl_minvf_shift vf rest _
      rw [htvr] at hIH
      set r := (abMinLoop rec rest a (min b acc'.1) acc').1 with hrdef
      have hmono : r ≤ acc'.1 := abMinLoop_fst_le rec rest _ _ _
      refine ⟨?_, ?_, ?_⟩
      · intro h1
        have htvle := hIH.1 h1
        rcases min_le_iff.mp htvle with h | h
        · have hreq : r = acc'.1 := le_antisymm hmono h
          have hbval : val ≤ a := by
            rw [hreq, hacc'1] at h1
            rcases min_le_iff.mp h1 with h' | h'
            · exact absurd (lt_of_lt_of_le hab (le_trans hacc h')) (lt_irrefl a)
            · exact h'
          have hrval : val ≤ r := by
            rw [hreq, hacc'1]
            rcases min_choice acc.1 val with h' | h'
            · rw [h']
              exact le_trans hbval (le_trans (le_of_lt hab) hacc)
            · rw [h']
          have hvvf : vf x.2.2 ≤ val := hx.1 hbval
          exact le_trans (le_trans (min_le_left _ _) (min_le_right _ _))
            (le_trans hvvf hrval)
        · exact le_trans (min_le_right _ _) h
      · intro hb
        have hb' : min b acc'.1 ≤ r := le_trans (min_le_left _ _) hb
        have hrle := hIH.2.1 hb'
        have hracc' : r ≤ acc'.1 := hmono
        have hrM : r ≤ M := le_trans hrle (min_le_right _ _)
        have hracc1 : r ≤ acc.1 := le_trans hracc' haccle
        have hrval : r ≤ val := le_trans hracc' hvalle
        have hvvf : val ≤ vf x.2.2 := hx.2.1 (le_trans hb hrval)
        exact le_min (le_min hracc1 (le_trans hrval hvvf)) hrM
      · intro ha hbb
        by_cases hrb : min b acc'.1 ≤ r
        · have hreq : r = acc'.1 := by
            rcases min_le_iff.mp hrb with h | h
            · exact absurd (lt_of_le_of_lt h hbb) (lt_irrefl b)
            · exact le_antisymm hmono h
          have hrval : r = val := by
            rw [hreq, hacc'1]
            rcases min_choice acc.1 val with h' | h'
            · rw [hreq, hacc'1, h'] at hbb
              exact absurd (lt_of_le_of_lt hacc hbb) (lt_irrefl b)
            · rw [h']
          have hvf : vf x.2.2 = val := by
            refine hx.2.2 ?_ ?_
            · rw [← hrval]; exact ha
            · rw [← hrval]; exact hbb
          have htvge := hIH.2.1 (by rw [hreq]; exact min_le_right _ _)
          have hrM : r ≤ M := le_trans htvge (min_le_right _ _)
          have hracc1 : r ≤ acc.1 := by rw [hreq, hacc'1]; exact min_le_left _ _
          refine le_antisymm ?_ ?_
          · rw [← hvf] at hrval
            rw [hrval]
            exact le_trans (min_le_left _ _) (min_le_right _ _)
          · refine le_min (le_min hracc1 ?_) hrM
            rw [hvf, ← hrval]
        · have hbeta' : r < min b acc'.1 := not_le.mp hrb
          have htveq := hIH.2.2 ha hbeta'
          have hracc' : r ≤ acc'.1 := hmono
          have hrM : r ≤ M := by
            rw [← htveq]; exact min_le_right _ _
          have hvala : a < val := by
            by_contra hva
            push_neg at hva
            exact hbr (le_trans (min_le_right _ _) (le_trans hvalle hva))
          have hvfger : r ≤ vf x.2.2 := by
            rcases le_or_lt b val with hvb | hvb
            · exact le_trans (le_trans hracc' hvalle) (hx.2.1 hvb)
            · rw [hx.2.2 hvala hvb]
              exact le_trans hracc' hvalle
          refine le_antisymm ?_ ?_
          · rcases min_choice acc'.1 M with h | h
            · rw [h] at htveq
              have hrval2 : r = acc'.1 := htveq.symm
              have : r = val := by
                rw [hrval2, hacc'1]
                rcases min_choice acc.1 val with h' | h'
                · rw [hrval2, hacc'1, h'] at hbb
                  exact absurd (lt_of_le_of_lt hacc hbb) (lt_irrefl b)
                · rw [h']
              rw [← hx.2.2 (this ▸ ha) (this ▸ hbb)] at this
              rw [this]
              exact le_trans (min_le_left _ _) (min_le_right _ _)
            · rw [h] at htveq
              rw [← htveq]
              exact min_le_right _ _
          · exact le_min (le_min (le_trans hracc' haccle) hvfger) hrM

theorem minimax_fst_fold_true {s : List ℕ} (h : is_terminal s = false) :
    (minimax s true).1 = (get_successors s).foldl
      (fun w x => max w ((minimax x.2.2 false).1)) (⊥ : EInt) := by
  rw [minimax_of_not_terminal h, mmFold_fst_true, List.foldl_map]
  rfl

theorem minimax_fst_fold_false {s : List ℕ} (h : is_terminal s = false) :
    (minimax s false).1 = (get_successors s).foldl
      (fun w x => min w ((minimax x.2.2 true).1)) (⊤ : EInt) := by
  rw [minimax_of_not_terminal h, mmFold_fst_false, List.foldl_map]
  rfl

theorem ab_km_aux :
    ∀ (n : ℕ) {s : List ℕ} {m : Bool} {a b : EInt}, s.sum ≤ n → a < b →
      kmProp (minimax_ab s a b m).1 (minimax s m).1 a b := by
  intro n
  induction n with
  | zero =>
    intro s m a b hn _
    have hterm : is_terminal s = true := by
      by_contra h
      have := sum_pos_of_not_terminal (Bool.not_eq_true _ ▸ h)
      omega
    rw [minimax_ab_of_terminal hterm, minimax_of_terminal hterm]
    exact ⟨fun _ => le_rfl, fun _ => le_rfl, fun _ _ => rfl⟩
  | succ n ih =>
    intro s m a b hn hab
    by_cases hterm : is_terminal s = true
    · rw [minimax_ab_of_terminal hterm, minimax_of_terminal hterm]
      exact ⟨fun _ => le_rfl, fun _ => le_rfl, fun _ _ => rfl⟩
    · have hterm' : is_terminal s = false := Bool.not_eq_true _ ▸ hterm
      cases m with
      | true =>
        rw [minimax_ab_true_eq hterm', minimax_fst_fold_true hterm']
        exact abMaxLoop_km (fun s' a' b' => (minimax_ab s' a' b' false).1)
          (fun s' => (minimax s' false).1) (get_successors s)
          (fun x hx a' b' hab' => by
            have := sum_lt_of_mem_get_successors hx
            exact ih (show x.2.2.sum ≤ n by omega) hab')
          a b ((⊥ : EInt), none) bot_le hab
      | false =>
        rw [minimax_ab_false_eq hterm', minimax_fst_fold_false hterm']
        exact abMinLoop_km (fun s' a' b' => (minimax_ab s' a' b' true).1)
          (fun s' => (minimax s' true).1) (get_successors s)
          (fun x hx a' b' hab' => by
            have := sum_lt_of_mem_get_successors hx
            exact ih (show x.2.2.sum ≤ n by omega) hab')
          a b ((⊤ : EInt), none) le_top hab

theorem ab_km {s : List ℕ} {m : Bool} {a b : EInt} (hab : a < b) :
    kmProp (minimax_ab s a b m).1 (minimax s m).1 a b :=
  ab_km_aux s.sum le_rfl hab

theorem abMaxLoop_root (rec : List ℕ → EInt → EInt → EInt) (vf : List ℕ → EInt) :
    ∀ (l : List (ℕ × ℕ × List ℕ)),
      (∀ x ∈ l, ∀ a b : EInt, a < b → kmProp (rec x.2.2 a b) (vf x.2.2) a b) →
      (∀ x ∈ l, vf x.2.2 ≠ ⊤) →
      ∀ acc : EInt × Option (ℕ × ℕ), acc.1 ≠ ⊤ →
        abMaxLoop rec l acc.1 ⊤ acc = mmFold true vf l acc := by
  intro l
  induction l with
  | nil => intro _ _ acc _; rfl
  | cons x rest ih =>
    intro hrec hvf acc hat
    have hacct : acc.1 < ⊤ := lt_top_iff_ne_top.mpr hat
    have hx := hrec x (List.mem_cons_self x rest) acc.1 ⊤ hacct
    have hvfx := hvf x (List.mem_cons_self x rest)
    rw [abMaxLoop, mmFold]
    simp only [Bool.true_and, Bool.not_true, Bool.false_and, Bool.or_false,
      decide_eq_true_eq]
    by_cases hv : acc.1 < vf x.2.2
    · have hval : rec x.2.2 acc.1 ⊤ = vf x.2.2 := by
        by_cases h1 : rec x.2.2 acc.1 ⊤ ≤ acc.1
        · exact absurd (le_trans (hx.1 h1) h1) (not_le.mpr hv)
        · push_neg at h1
          by_cases h2 : rec x.2.2 acc.1 ⊤ < ⊤
          · exact (hx.2.2 h1 h2).symm
          · push_neg at h2
            exact absurd (top_le_iff.mp (le_trans h2 (hx.2.1 h2))) hvfx
      rw [hval, if_pos hv]
      have halpha : max acc.1 ((vf x.2.2, some (x.1, x.2.1)) :
          EInt × Option (ℕ × ℕ)).1 = vf x.2.2 := max_eq_right (le_of_lt hv)
      rw [halpha]
      rw [if_neg (not_le.mpr (lt_top_iff_ne_top.mpr hvfx))]
      exact ih (fun y hy => hrec y (List.mem_cons_of_mem x hy))
        (fun y hy => hvf y (List.mem_cons_of_mem x hy))
        (vf x.2.2, some (x.1, x.2.1)) hvfx
    · have hval : ¬ acc.1 < rec x.2.2 acc.1 ⊤ := by
        intro h1
        by_cases h2 : rec x.2.2 acc.1 ⊤ < ⊤
        · exact hv ((hx.2.2 h1 h2) ▸ h1)
        · push_neg at h2
          exact hvfx (top_le_iff.mp (le_trans h2 (hx.2.1 h2)))
      rw [if_neg hval, if_neg hv]
      rw [max_self]
      rw [if_neg (not_le.mpr hacct)]
      exact ih (fun y hy => hrec y (List.mem_cons_of_mem x hy))
        (fun y hy => hvf y (List.mem_cons_of_mem x hy)) acc hat

theorem abMinLoop_root (rec : List ℕ → EInt → EInt → EInt) (vf : List ℕ → EInt) :
    ∀ (l : List (ℕ × ℕ × List ℕ)),
      (∀ x ∈ l, ∀ a b : EInt, a < b → kmProp (rec x.2.2 a b) (vf x.2.2) a b) →
      (∀ x ∈ l, vf x.2.2 ≠ ⊥) →
      ∀ acc : EInt × Option (ℕ × ℕ), acc.1 ≠ ⊥ →
        abMinLoop rec l ⊥ acc.1 acc = mmFold false vf l acc := by
  intro l
  induction l with
  | nil => intro _ _ acc _; rfl
  | cons x rest ih =>
    intro hrec hvf acc hat
    have hacct : (⊥ : EInt) < acc.1 := bot_lt_iff_ne_bot.mpr hat
    have hx := hrec x (List.mem_cons_self x rest) ⊥ acc.1 hacct
    have hvfx := hvf x (List.mem_cons_self x rest)
    rw [abMinLoop, mmFold]
    simp only [Bool.false_and, Bool.not_false, Bool.true_and, Bool.false_or,
      decide_eq_true_eq]
    by_cases hv : vf x.2.2 < acc.1
    · have hval : rec x.2.2 ⊥ acc.1 = vf x.2.2 := by
        by_cases h1 : acc.1 ≤ rec x.2.2 ⊥ acc.1
        · exact absurd (le_trans h1 (hx.2.1 h1)) (not_le.mpr hv)
        · push_neg at h1
          by_cases h2 : (⊥ : EInt) < rec x.2.2 ⊥ acc.1
          · exact (hx.2.2 h2 h1).symm
          · push_neg at h2
            exact absurd (le_bot_iff.mp (le_trans (hx.1 h2) h2)) hvfx
      rw [hval, if_pos hv]
      have hbeta : min acc.1 ((vf x.2.2, some (x.1, x.2.1)) :
          EInt × Option (ℕ × ℕ)).1 = vf x.2.2 := min_eq_right (le_of_lt hv)
      rw [hbeta]
      rw [if_neg (not_le.mpr (bot_lt_iff_ne_bot.mpr hvfx))]
      exact ih (fun y hy => hrec y (List.mem_cons_of_mem x hy))
        (fun y hy => hvf y (List.mem_cons_of_mem x hy))
        (vf x.2.2, some (x.1, x.2.1)) hvfx
    · have hval : ¬ rec x.2.2 ⊥ acc.1 < acc.1 := by
        intro h1
        by_cases h2 : (⊥ : EInt) < rec x.2.2 ⊥ acc.1
        · exact hv ((hx.2.2 h2 h1) ▸ h1)
        · push_neg at h2
          exact hvfx (le_bot_iff.mp (le_trans (hx.1 h2) h2))
      rw [if_neg hval, if_neg hv]
      rw [min_self]
      rw [if_neg (not_le.mpr hacct)]
      exact ih (fun y hy => hrec y (List.mem_cons_of_mem x hy))
        (fun y hy => hvf y (List.mem_cons_of_mem x hy)) acc hat

theorem minimax_fst_ne_top (s : List ℕ) (m : Bool) : (minimax s m).1 ≠ ⊤ := by
  rcases minimax_fst_cases s m with h | h <;> rw [h] <;> exact EInt.ofInt_ne_top _

theorem minimax_fst_ne_bot (s : List ℕ) (m : Bool) : (minimax s m).1 ≠ ⊥ := by
  rcases minimax_fst_cases s m with h | h <;> rw [h] <;> exact EInt.ofInt_ne_bot _

theorem minimax_ab_bot_top_eq (s : List ℕ) (m : Bool) :
    minimax_ab s ⊥ ⊤ m = minimax s m := by
  by_cases hterm : is_terminal s = true
  · rw [minimax_ab_of_terminal hterm, minimax_of_terminal hterm]
  · have hterm' : is_terminal s = false := Bool.not_eq_true _ ▸ hterm
    cases m with
    | true =>
      rw [minimax_ab_true_eq hterm', minimax_of_not_terminal hterm']
      exact abMaxLoop_root (fun s' a' b' => (minimax_ab s' a' b' false).1)
        (fun s' => (minimax s' false).1) (get_successors s)
        (fun x _ a' b' h => ab_km h)
        (fun x _ => minimax_fst_ne_top x.2.2 false)
        ((⊥ : EInt), none) (by simp)
    | false =>
      rw [minimax_ab_false_eq hterm', minimax_of_not_terminal hterm']
      exact abMinLoop_root (fun s' a' b' => (minimax_ab s' a' b' true).1)
        (fun s' => (minimax s' true).1) (get_successors s)
        (fun x _ a' b' h => ab_km h)
        (fun x _ => minimax_fst_ne_bot x.2.2 true)
        ((⊤ : EInt), none) (by simp)

theorem get_successors_enumeration (s : List ℕ) :
    get_successors s =
      (List.range s.length).flatMap fun i =>
        (List.range (s.getD i 0)).map fun t =>
          (i, t + 1, s.set i (s.getD i 0 - (t + 1))) := by
  induction s with
  | nil => simp [get_successors]
  | cons c rest ih =>
    rw [get_successors, ih]
    rw [List.length_cons, List.range_succ_eq_map, List.flatMap_cons]
    congr 1
    rw [List.flatMap_map, List.map_flatMap]
    refine congrArg (List.flatMap (List.range rest.length)) (funext fun i => ?_)
    rw [List.map_map]
    simp [Nat.succ_eq_add_one, List.getD_cons_succ, List.set_cons_succ,
      Function.comp, List.getD]

theorem abMaxLoop_snd_cases (rec : List ℕ → EInt → EInt → EInt)
    (l : List (ℕ × ℕ × List ℕ)) :
    ∀ a b acc, (abMaxLoop rec l a b acc).2 = acc.2 ∨
      ∃ x ∈ l, (abMaxLoop rec l a b acc).2 = some (x.1, x.2.1) := by
  induction l with
  | nil => intro a b acc; exact Or.inl rfl
  | cons x rest ih =>
    intro a b acc
    rw [abMaxLoop]
    split
    · split
      · exact Or.inr ⟨x, List.mem_cons_self x rest, rfl⟩
      · rcases ih _ _ (rec x.2.2 a b, some (x.1, x.2.1)) with h | ⟨y, hy, h⟩
        · exact Or.inr ⟨x, List.mem_cons_self x rest, h⟩
        · exact Or.inr ⟨y, List.mem_cons_of_mem x hy, h⟩
    · split
      · exact Or.inl rfl
      · rcases ih _ _ acc with h | ⟨y, hy, h⟩
        · exact Or.inl h
        · exact Or.inr ⟨y, List.mem_cons_of_mem x hy, h⟩

theorem abMinLoop_snd_cases (rec : List ℕ → EInt → EInt → EInt)
    (l : List (ℕ × ℕ × List ℕ)) :
    ∀ a b acc, (abMinLoop rec l a b acc).2 = acc.2 ∨
      ∃ x ∈ l, (abMinLoop rec l a b acc).2 = some (x.1, x.2.1) := by
  induction l with
  | nil => intro a b acc; exact Or.inl rfl
  | cons x rest ih =>
    intro a b acc
    rw [abMinLoop]
    split
    · split
      · exact Or.inr ⟨x, List.mem_cons_self x rest, rfl⟩
      · rcases ih _ _ (rec x.2.2 a b, some (x.1, x.2.1)) with h | ⟨y, hy, h⟩
        · exact Or.inr ⟨x, List.mem_cons_self x rest, h⟩
        · exact Or.inr ⟨y, List.mem_cons_of_mem x hy, h⟩
    · split
      · exact Or.inl rfl
      · rcases ih _ _ acc with h | ⟨y, hy, h⟩
        · exact Or.inl h
        · exact Or.inr ⟨y, List.mem_cons_of_mem x hy, h⟩

theorem minimax_snd_mem {s : List ℕ} {m : Bool} {mv : ℕ × ℕ}
    (h : (minimax s m).2 = some mv) :
    ∃ x ∈ get_successors s, mv = (x.1, x.2.1) := by
  by_cases hterm : is_terminal s = true
  · rw [minimax_of_terminal hterm] at h
    exact absurd h (by simp)
  · have hterm' : is_terminal s = false := Bool.not_eq_true _ ▸ hterm
    rw [minimax_of_not_terminal hterm'] at h
    rcases mmFold_snd_cases (if m then ((⊥ : EInt), none) else ((⊤ : EInt), none))
      with hc | ⟨x, hx, hsome⟩
    · rw [h] at hc
      have : (if m then ((⊥ : EInt), (none : Option (ℕ × ℕ))) else (⊤, none)).2 =
          none := by cases m <;> rfl
      rw [this] at hc
      exact absurd hc (by simp)
    · rw [h] at hsome
      exact ⟨x, hx, by injection hsome⟩

theorem minimax_ab_snd_mem {s : List ℕ} {a b : EInt} {m : Bool} {mv : ℕ × ℕ}
    (h : (minimax_ab s a b m).2 = some mv) :
    ∃ x ∈ get_successors s, mv = (x.1, x.2.1) := by
  by_cases hterm : is_terminal s = true
  · rw [minimax_ab_of_terminal hterm] at h
    exact absurd h (by simp)
  · have hterm' : is_terminal s = false := Bool.not_eq_true _ ▸ hterm
    cases m with
    | true =>
      rw [minimax_ab_true_eq hterm'] at h
      rcases abMaxLoop_snd_cases (fun s' a' b' => (minimax_ab s' a' b' false).1)
        (get_successors s) a b ((⊥ : EInt), none) with hc | ⟨x, hx, hsome⟩
      · rw [h] at hc
        exact absurd hc (by simp)
      · rw [h] at hsome
        exact ⟨x, hx, by injection hsome⟩
    | false =>
      rw [minimax_ab_false_eq hterm'] at h
      rcases abMinLoop_snd_cases (fun s' a' b' => (minimax_ab s' a' b' true).1)
        (get_successors s) a b ((⊤ : EInt), none) with hc | ⟨x, hx, hsome⟩
      · rw [h] at hc
        exact absurd hc (by simp)
      · rw [h] at hsome
        exact ⟨x, hx, by injection hsome⟩

theorem pychoice_mem {α : Type} {l : List α} (hl : l ≠ []) (k : ℕ) :
    ∃ y ∈ l, pychoice l k = some y := by
  have hlen : 0 < l.length := List.length_pos.mpr hl
  have hmod : k % l.length < l.length := Nat.mod_lt k hlen
  rw [pychoice, List.get?_eq_getElem?]
  refine ⟨l[k % l.length], List.getElem_mem hmod, ?_⟩
  exact List.getElem?_eq_getElem hmod

theorem simulateF_ok (oracle : ℕ → ℕ) :
    ∀ (n : ℕ) {idx fuel : ℕ} {s : List ℕ} {flag : Bool},
      s.sum ≤ n → s.sum < fuel →
      ∃ r idx', simulateF oracle idx fuel s flag = .ok (r, idx') := by
  intro n
  induction n with
  | zero =>
    intro idx fuel s flag hn _
    have hterm : is_terminal s = true := by
      by_contra h
      have := sum_pos_of_not_terminal (Bool.not_eq_true _ ▸ h)
      omega
    rw [simulateF.eq_def]
    dsimp only
    rw [hterm]
    exact ⟨_, _, by rw [if_pos rfl]⟩
  | succ n ih =>
    intro idx fuel s flag hn hfuel
    by_cases hterm : is_terminal s = true
    · rw [simulateF.eq_def]
      dsimp only
      rw [hterm]
      exact ⟨_, _, by rw [if_pos rfl]⟩
    · have hterm' : is_terminal s = false := Bool.not_eq_true _ ▸ hterm
      have hpos := sum_pos_of_not_terminal hterm'
      obtain ⟨g, rfl⟩ : ∃ g, fuel = g + 1 := ⟨fuel - 1, by omega⟩
      obtain ⟨y, hy, hchoice⟩ :=
        pychoice_mem (get_successors_ne_nil hterm') (oracle idx)
      have hylt := sum_lt_of_mem_get_successors hy
      rw [simulateF.eq_def]
      dsimp only
      rw [hterm']
      simp only [Bool.false_eq_true, if_false, hchoice]
      exact ih (by omega) (by omega)

theorem simulateF_fuel_eq (oracle : ℕ → ℕ) :
    ∀ (n : ℕ) {idx f1 f2 : ℕ} {s : List ℕ} {flag : Bool},
      s.sum ≤ n → s.sum < f1 → s.sum < f2 →
      simulateF oracle idx f1 s flag = simulateF oracle idx f2 s flag := by
  intro n
  induction n with
  | zero =>
    intro idx f1 f2 s flag hn _ _
    have hterm : is_terminal s = true := by
      by_contra h
      have := sum_pos_of_not_terminal (Bool.not_eq_true _ ▸ h)
      omega
    rw [simulateF.eq_def, simulateF.eq_def]
    dsimp only
    rw [hterm]
    simp
  | succ n ih =>
    intro idx f1 f2 s flag hn h1 h2
    by_cases hterm : is_terminal s = true
    · rw [simulateF.eq_def, simulateF.eq_def]
      dsimp only
      rw [hterm]
      simp
    · have hterm' : is_terminal s = false := Bool.not_eq_true _ ▸ hterm
      have hpos := sum_pos_of_not_terminal hterm'
      obtain ⟨g1, rfl⟩ : ∃ g1, f1 = g1 + 1 := ⟨f1 - 1, by omega⟩
      obtain ⟨g2, rfl⟩ : ∃ g2, f2 = g2 + 1 := ⟨f2 - 1, by omega⟩
      rw [simulateF.eq_def, simulateF.eq_def]
      dsimp only
      rw [hterm']
      simp only [Bool.false_eq_true, if_false]
      obtain ⟨y, hy, hchoice⟩ :=
        pychoice_mem (get_successors_ne_nil hterm') (oracle idx)
      rw [hchoice]
      have hylt := sum_lt_of_mem_get_successors hy
      exact ih (by omega) (by omega) (by omega)

theorem pymax_isSome {α K : Type} [LinearOrder K] (f : α → K) {l : List α}
    (hl : l ≠ []) : ∃ p, pymax f l = some p := by
  cases l with
  | nil => exact absurd rfl hl
  | cons x xs => exact ⟨_, rfl⟩

theorem MNode.state_mk (st : List ℕ) (ch : List MNode) (w : ℤ) (v : ℕ)
    (u : List (ℕ × ℕ × List ℕ)) : MNode.state (.mk st ch w v u) = st := rfl

theorem MNode.children_mk (st : List ℕ) (ch : List MNode) (w : ℤ) (v : ℕ)
    (u : List (ℕ × ℕ × List ℕ)) : MNode.children (.mk st ch w v u) = ch := rfl

theorem MNode.visits_mk (st : List ℕ) (ch : List MNode) (w : ℤ) (v : ℕ)
    (u : List (ℕ × ℕ × List ℕ)) : MNode.visits (.mk st ch w v u) = v := rfl

theorem MNode.untried_mk (st : List ℕ) (ch : List MNode) (w : ℤ) (v : ℕ)
    (u : List (ℕ × ℕ × List ℕ)) : MNode.untried (.mk st ch w v u) = u := rfl

theorem Good_iff {st : List ℕ} {ch : List MNode} {w : ℤ} {v : ℕ}
    {u : List (ℕ × ℕ × List ℕ)} :
    Good (MNode.mk st ch w v u) ↔
      (∀ c ∈ ch, 1 ≤ MNode.visits c) ∧ (∀ c ∈ ch, Good c) ∧
        (ch ≠ [] → 1 ≤ v) ∧ (∀ mv ∈ u, mv ∈ get_successors st) ∧
        (∀ c ∈ ch, (MNode.state c).sum < st.sum) := by
  constructor
  · intro h
    cases h with
    | mk h1 h2 h3 h4 h5 => exact ⟨h1, h2, h3, h4, h5⟩
  · intro ⟨h1, h2, h3, h4, h5⟩
    exact Good.mk h1 h2 h3 h4 h5

theorem iterateOnceF_good {K : Type} [LinearOrder K] (key : ℤ → ℕ → ℕ → K)
    (oracle : ℕ → ℕ) :
    ∀ (fuel : ℕ) (n : MNode), (MNode.state n).sum < fuel → Good n → ∀ idx : ℕ,
      ∃ n' r idx', iterateOnceF key oracle fuel n idx = .ok (n', r, idx') ∧
        Good n' ∧ MNode.visits n' = MNode.visits n + 1 ∧
        MNode.state n' = MNode.state n ∧
        (MNode.untried n = [] ∧ MNode.children n = [] →
          MNode.untried n' = [] ∧ MNode.children n' = []) := by
  intro fuel
  induction fuel with
  | zero =>
    intro n hsize
    exact absurd hsize (Nat.not_lt_zero _)
  | succ N ih =>
    intro n hsize hg idx
    rcases n with ⟨st, ch, w, v, u⟩
    rw [Good_iff] at hg
    obtain ⟨hgv, hgg, hgne, hgu, hgs⟩ := hg
    rw [MNode.state_mk] at hsize
    rw [iterateOnceF]
    by_cases hsel : (u.isEmpty && !ch.isEmpty) = true
    · rw [if_pos hsel]
      obtain ⟨hu, hch⟩ : u = [] ∧ ch ≠ [] := by
        rw [Bool.and_eq_true, List.isEmpty_iff, Bool.not_eq_true',
          Bool.eq_false_iff, ne_eq, List.isEmpty_iff] at hsel
        exact hsel
      have hvne : ¬ (v = 0 ∨ (ch.any fun c => MNode.visits c == 0) = true) := by
        rintro (h0 | hany)
        · have := hgne hch; omega
        · rw [List.any_eq_true] at hany
          obtain ⟨c, hc, hc0⟩ := hany
          have := hgv c hc
          rw [beq_iff_eq] at hc0
          omega
      have hsel_some : ∃ p, uct_select key (MNode.mk st ch w v u) = some p := by
        rw [uct_select]
        rw [if_neg (by simpa [MNode.visits_mk, MNode.children_mk] using hvne)]
        exact pymax_isSome _ (by simpa [MNode.children_mk] using hch)
      obtain ⟨⟨j, c⟩, hp⟩ := hsel_some
      rw [hp]
      dsimp only
      have hcmem : c.1 ∈ ch := c.2
      have hsizec : (MNode.state c.1).sum < N := by
        have := hgs c.1 hcmem
        omega
      obtain ⟨n', r, idx', hrun, hgood', hvis', hstate', _⟩ :=
        ih c.1 hsizec (hgg c.1 hcmem) idx
      rw [hrun]
      refine ⟨_, r, idx', rfl, ?_, ?_, ?_, ?_⟩
      · rw [Good_iff]
        refine ⟨?_, ?_, fun _ => by omega, hgu, ?_⟩
        · intro y hy
          rcases List.mem_or_eq_of_mem_set hy with h | h
          · exact hgv y h
          · rw [h, hvis']; omega
        · intro y hy
          rcases List.mem_or_eq_of_mem_set hy with h | h
          · exact hgg y h
          · rw [h]; exact hgood'
        · intro y hy
          rcases List.mem_or_eq_of_mem_set hy with h | h
          · exact hgs y h
          · rw [h, hstate']
            exact hgs c.1 hcmem
      · rw [MNode.visits_mk, MNode.visits_mk]
      · rw [MNode.state_mk, MNode.state_mk]
      · rintro ⟨_, hch'⟩
        rw [MNode.children_mk] at hch'
        exact absurd hch' hch
    · rw [if_neg hsel]
      rcases hlast : u.getLast? with _ | mv
      all_goals dsimp only
      · have hu : u = [] := List.getLast?_eq_none_iff.mp hlast
        have hch : ch = [] := by
          subst hu
          rw [Bool.and_eq_true, Bool.not_eq_true', Bool.eq_false_iff] at hsel
          push_neg at hsel
          have := hsel (by rfl)
          exact List.isEmpty_iff.mp this
        obtain ⟨r, idx', hsim⟩ := simulateF_ok oracle st.sum le_rfl (Nat.lt_succ_self _)
        rw [hsim]
        refine ⟨_, r, idx', rfl, ?_, ?_, ?_, ?_⟩
        · rw [Good_iff]
          exact ⟨hgv, hgg, fun _ => by subst hch; omega, hgu, hgs⟩
        · rw [MNode.visits_mk, MNode.visits_mk]
        · rw [MNode.state_mk, MNode.state_mk]
        · intro _
          rw [MNode.untried_mk, MNode.children_mk]
          exact ⟨hu, hch⟩
      · obtain ⟨r, idx', hsim⟩ :=
          simulateF_ok oracle mv.2.2.sum le_rfl (Nat.lt_succ_self _)
        rw [hsim]
        have hmvmem : mv ∈ u := List.mem_of_mem_getLast? hlast
        refine ⟨_, r, idx', rfl, ?_, ?_, ?_, ?_⟩
        · rw [Good_iff]
          refine ⟨?_, ?_, fun _ => by omega, ?_, ?_⟩
          · intro y hy
            rcases List.mem_append.mp hy with h | h
            · exact hgv y h
            · rw [List.mem_singleton.mp h, MNode.visits_mk]
          · intro y hy
            rcases List.mem_append.mp hy with h | h
            · exact hgg y h
            · rw [List.mem_singleton.mp h, Good_iff]
              exact ⟨by simp, by simp, fun hne => absurd rfl hne,
                fun mv' hmv' => hmv', by simp⟩
          · exact fun mv' hmv' => hgu mv' (List.dropLast_subset u hmv')
          · intro y hy
            rcases List.mem_append.mp hy with h | h
            · exact hgs y h
            · rw [List.mem_singleton.mp h, MNode.state_mk]
              exact sum_lt_of_mem_get_successors (hgu mv hmvmem)
        · rw [MNode.visits_mk, MNode.visits_mk]
        · rw [MNode.state_mk, MNode.state_mk]
        · rintro ⟨hu', _⟩
          rw [MNode.untried_mk] at hu'
          rw [hu'] at hlast
          exact absurd hlast (by simp)

theorem iterateOnce_good {K : Type} [LinearOrder K] (key : ℤ → ℕ → ℕ → K)
    (oracle : ℕ → ℕ) (n : MNode) (hg : Good n) (idx : ℕ) :
    ∃ n' r idx', iterateOnce key oracle n idx = .ok (n', r, idx') ∧ Good n' ∧
      MNode.visits n' = MNode.visits n + 1 ∧
      (MNode.untried n = [] ∧ MNode.children n = [] →
        MNode.untried n' = [] ∧ MNode.children n' = []) := by
  obtain ⟨n', r, idx', hrun, hg', hvis, _, hpres⟩ :=
    iterateOnceF_good key oracle ((MNode.state n).sum + 1) n (Nat.lt_succ_self _) hg idx
  exact ⟨n', r, idx', hrun, hg', hvis, hpres⟩

theorem mctsLoop_good {K : Type} [LinearOrder K] (key : ℤ → ℕ → ℕ → K)
    (oracle : ℕ → ℕ) :
    ∀ (k : ℕ) (root : MNode) (idx : ℕ), Good root →
      ∃ root' idx', mctsLoop key oracle k root idx = .ok (root', idx') ∧
        Good root' ∧
        (MNode.untried root = [] ∧ MNode.children root = [] →
          MNode.untried root' = [] ∧ MNode.children root' = []) := by
  intro k
  induction k with
  | zero => intro root idx hg; exact ⟨root, idx, rfl, hg, fun h => h⟩
  | succ k ih =>
    intro root idx hg
    obtain ⟨n', r, idx', hrun, hg', _, hpres⟩ :=
      iterateOnce_good key oracle root hg idx
    obtain ⟨root', idx'', hloop, hg'', hpres'⟩ := ih n' idx' hg'
    refine ⟨root', idx'', ?_, hg'', fun h => hpres' (hpres h)⟩
    rw [mctsLoop, hrun]
    exact hloop

theorem Good_init (state : List ℕ) : Good (MNode.init state) := by
  rw [MNode.init, Good_iff]
  exact ⟨by simp, by simp, fun h => absurd rfl h, fun mv hmv => hmv, by simp⟩

theorem mcts_cases {K : Type} [LinearOrder K] (key : ℤ → ℕ → ℕ → K)
    (oracle : ℕ → ℕ) (state : List ℕ) (k : ℕ) :
    (∃ t, mcts key oracle state k = .ok t) ∨
      mcts key oracle state k = .error .emptyMax := by
  obtain ⟨root', idx', hloop, _, _⟩ :=
    mctsLoop_good key oracle k (MNode.init state) 0 (Good_init state)
  rw [mcts, hloop]
  dsimp only
  rcases hmax : pymax (fun c : MNode => c.visits) root'.children with _ | p
  · exact Or.inr rfl
  · exact Or.inl ⟨_, rfl⟩

theorem mcts_error_eq {K : Type} [LinearOrder K] {key : ℤ → ℕ → ℕ → K}
    {oracle : ℕ → ℕ} {state : List ℕ} {k : ℕ} {e : MErr}
    (h : mcts key oracle state k = .error e) : e = .emptyMax := by
  rcases mcts_cases key oracle state k with ⟨t, ht⟩ | herr
  · rw [ht] at h
    exact absurd h (by simp)
  · rw [herr] at h
    injection h with h
    exact h.symm

theorem mcts_terminal_or_zero {K : Type} [LinearOrder K] (key : ℤ → ℕ → ℕ → K)
    (oracle : ℕ → ℕ) {state : List ℕ} {k : ℕ}
    (h : is_terminal state = true ∨ k = 0) :
    mcts key oracle state k = .error .emptyMax := by
  rcases h with hterm | rfl
  · obtain ⟨root', idx', hloop, _, hpres⟩ :=
      mctsLoop_good key oracle k (MNode.init state) 0 (Good_init state)
    have hempty := hpres ⟨by
        rw [MNode.init, MNode.untried_mk]
        exact get_successors_eq_nil.mpr hterm,
      by rw [MNode.init, MNode.children_mk]⟩
    rw [mcts, hloop]
    dsimp only
    rw [hempty.2]
    rfl
  · have hzero : mctsLoop key oracle 0 (MNode.init state) 0 =
        .ok (MNode.init state, 0) := rfl
    rw [mcts, hzero]
    rfl

theorem mcts_ok_some_mem {K : Type} [LinearOrder K] {key : ℤ → ℕ → ℕ → K}
    {oracle : ℕ → ℕ} {state : List ℕ} {k : ℕ} {mv : ℕ × ℕ}
    (h : mcts key oracle state k = .ok (some mv)) :
    ∃ x ∈ get_successors state, mv = (x.1, x.2.1) := by
  obtain ⟨root', idx', hloop, _, _⟩ :=
    mctsLoop_good key oracle k (MNode.init state) 0 (Good_init state)
  rw [mcts, hloop] at h
  dsimp only at h
  rcases hmax : pymax (fun c : MNode => c.visits) root'.children with _ | p
  · rw [hmax] at h
    exact absurd h (by simp)
  · obtain ⟨j, best⟩ := p
    rw [hmax] at h
    dsimp only at h
    injection h with h
    obtain ⟨x, hfind, hmap⟩ := Option.map_eq_some'.mp h
    exact ⟨x, List.mem_of_find?_eq_some hfind, hmap.symm⟩

/-- C1: for every state (finite sequence of pile counts) and every value of
the maximizing flag, `minimax_ab` called with the initial bounds
`alpha = -∞` and `beta = +∞` returns exactly the same (value, move) pair as
`minimax`: identical value and, when several moves tie, the identical
first-in-enumeration-order move. -/
theorem alpha_beta_equals_minimax (s : List ℕ) (m : Bool) :
    minimax_ab s ⊥ ⊤ m = minimax s m :=
  minimax_ab_bot_top_eq s m

/-- C2: contrary to the specified behaviour, `mcts` does not return the
"no move" signal on an already-terminal root nor with zero iterations: the
root never acquires children, so the final `max(root.children, ...)` raises
a ValueError (modelled by `Except.error MErr.emptyMax`) instead of
completing normally with `None`. -/
theorem mcts_terminal_root_raises {K : Type} [LinearOrder K]
    (key : ℤ → ℕ → ℕ → K) (oracle : ℕ → ℕ) (state : List ℕ) (k : ℕ)
    (h : is_terminal state = true ∨ k = 0) :
    mcts key oracle state k = Except.error MErr.emptyMax :=
  mcts_terminal_or_zero key oracle h

/-- Witness for the C2 theorem: the terminal state `[0,0,0,0]` with 5
iterations and the state `[1]` with 0 iterations. -/
theorem mcts_terminal_root_raises_witness :
    mcts (fun _ _ _ => (0 : ℤ)) (fun _ => 0) [0, 0, 0, 0] 5 =
        Except.error MErr.emptyMax ∧
      mcts (fun _ _ _ => (0 : ℤ)) (fun _ => 0) [1] 0 =
        Except.error MErr.emptyMax :=
  ⟨mcts_terminal_root_raises _ _ _ _ (Or.inl (by decide)),
   mcts_terminal_root_raises _ _ _ _ (Or.inr rfl)⟩

/-- C3: the claim that `utility` returns 0 on every non-terminal state
fails on the code: the Python conditional expression associates to the
right, so `utility` returns -1 whenever the flag is true, even at the
non-terminal state `[1]` where the claim demands 0. -/
theorem utility_nonterminal_counterexample :
    is_terminal [1] = false ∧ utility [1] true = -1 :=
  ⟨rfl, rfl⟩

/-- C4: on a state whose piles are all zero, both exact solvers (alpha-beta
at the initial bounds `-∞`/`+∞`) return `(-1 if maximizing else +1, none)`. -/
theorem solvers_terminal_value (s : List ℕ) (m : Bool) (h : ∀ x ∈ s, x = 0) :
    minimax s m = (EInt.ofInt (if m then -1 else 1), none) ∧
      minimax_ab s ⊥ ⊤ m = (EInt.ofInt (if m then -1 else 1), none) := by
  have hterm : is_terminal s = true := is_terminal_iff.mpr h
  have hu : EInt.ofInt (utility s m) = EInt.ofInt (if m then -1 else 1) := by
    cases m
    · simp [utility, hterm]
    · simp [utility]
  rw [minimax_of_terminal hterm, minimax_ab_of_terminal hterm, hu]
  exact ⟨rfl, rfl⟩

/-- Witness for the C4 theorem at `[0,0,0,0]` with the maximizing flag. -/
theorem solvers_terminal_value_witness :
    minimax [0, 0, 0, 0] true =
        (EInt.ofInt (if (true : Bool) then -1 else 1), none) ∧
      minimax_ab [0, 0, 0, 0] ⊥ ⊤ true =
        (EInt.ofInt (if (true : Bool) then -1 else 1), none) :=
  solvers_terminal_value [0, 0, 0, 0] true (by decide)

/-- C5: `get_successors` emits exactly one triple (pile, take, resulting
state) for every pile with count c > 0 and every take in [1, c], in
ascending pile-index order and, within a pile, ascending take order, each
resulting state being the input with that pile reduced by the take and all
other piles unchanged: the produced list equals the canonical ordered
enumeration, and membership is characterised accordingly. -/
theorem get_successors_complete (s : List ℕ) :
    (get_successors s =
      (List.range s.length).flatMap fun i =>
        (List.range (s.getD i 0)).map fun t =>
          (i, t + 1, s.set i (s.getD i 0 - (t + 1)))) ∧
    (∀ x : ℕ × ℕ × List ℕ, x ∈ get_successors s ↔
      x.1 < s.length ∧ 1 ≤ x.2.1 ∧ x.2.1 ≤ s.getD x.1 0 ∧
        x.2.2 = s.set x.1 (s.getD x.1 0 - x.2.1)) :=
  ⟨get_successors_enumeration s, fun _ => mem_get_successors⟩

/-- C6: every triple produced by the move generator satisfies
`sum(resulting) = sum(state) - take` with `take ≥ 1` (the total token
count strictly decreases by exactly the taken amount), and a state with
all piles zero — in particular `[0,0,0,0]` — yields no moves. -/
theorem moves_decrease_sum :
    (∀ (s : List ℕ) (x : ℕ × ℕ × List ℕ), x ∈ get_successors s →
      1 ≤ x.2.1 ∧ x.2.2.sum + x.2.1 = s.sum ∧ x.2.2.sum = s.sum - x.2.1) ∧
    (∀ s : List ℕ, is_terminal s = true → get_successors s = []) ∧
    get_successors [0, 0, 0, 0] = [] := by
  refine ⟨?_, ?_, by decide⟩
  · intro s x hx
    obtain ⟨h1, h2⟩ := sum_of_mem_get_successors hx
    exact ⟨h1, h2, by omega⟩
  · intro s hs
    exact get_successors_eq_nil.mpr hs

/-- Witness for the C6 theorem at the move `(0, 1, [1])` of the state `[2]`
and the terminal states `[0]` and `[0,0,0,0]`. -/
theorem moves_decrease_sum_witness :
    (1 ≤ 1 ∧ [1].sum + 1 = [2].sum ∧ [1].sum = [2].sum - 1) ∧
      get_successors [0] = [] ∧ get_successors [0, 0, 0, 0] = [] :=
  ⟨moves_decrease_sum.1 [2] (0, 1, [1]) (by decide),
   moves_decrease_sum.2.1 [0] (by decide), moves_decrease_sum.2.2⟩

/-- C7: on a non-terminal state, whenever `minimax`, `minimax_ab` (at the
initial bounds), or `mcts` returns a move `(i, t)`, the move is legal —
pile index in range, `1 ≤ t ≤` that pile's count — and applying it
(reducing pile `i` by `t`) yields a state with strictly smaller total
token count. -/
theorem returned_moves_legal (s : List ℕ) (m : Bool) (i t : ℕ)
    (K : Type) [LinearOrder K] (key : ℤ → ℕ → ℕ → K) (oracle : ℕ → ℕ)
    (k : ℕ) (hs : is_terminal s = false) :
    ((minimax s m).2 = some (i, t) →
      i < s.length ∧ 1 ≤ t ∧ t ≤ s.getD i 0 ∧
        (s.set i (s.getD i 0 - t)).sum < s.sum) ∧
    ((minimax_ab s ⊥ ⊤ m).2 = some (i, t) →
      i < s.length ∧ 1 ≤ t ∧ t ≤ s.getD i 0 ∧
        (s.set i (s.getD i 0 - t)).sum < s.sum) ∧
    (mcts key oracle s k = .ok (some (i, t)) →
      i < s.length ∧ 1 ≤ t ∧ t ≤ s.getD i 0 ∧
        (s.set i (s.getD i 0 - t)).sum < s.sum) := by
  have hmain : ∀ x ∈ get_successors s, (i, t) = (x.1, x.2.1) →
      i < s.length ∧ 1 ≤ t ∧ t ≤ s.getD i 0 ∧
        (s.set i (s.getD i 0 - t)).sum < s.sum := by
    intro x hx hxe
    have hi : i = x.1 := congrArg Prod.fst hxe
    have ht : t = x.2.1 := congrArg Prod.snd hxe
    subst hi; subst ht
    obtain ⟨h1, h2, h3, h4⟩ := mem_get_successors.mp hx
    obtain ⟨h5, h6⟩ := sum_of_mem_get_successors hx
    refine ⟨h1, h2, h3, ?_⟩
    rw [← h4]
    omega
  refine ⟨?_, ?_, ?_⟩
  · intro h
    obtain ⟨x, hx, hxe⟩ := minimax_snd_mem h
    exact hmain x hx hxe
  · intro h
    obtain ⟨x, hx, hxe⟩ := minimax_ab_snd_mem h
    exact hmain x hx hxe
  · intro h
    obtain ⟨x, hx, hxe⟩ := mcts_ok_some_mem h
    exact hmain x hx hxe

/-- Witness for the C7 theorem: on the state `[1]` all three solvers
return the move `(0, 1)`, which is legal and decreases the sum. -/
theorem returned_moves_legal_witness :
    (0 < [1].length ∧ 1 ≤ 1 ∧ 1 ≤ [1].getD 0 0 ∧
      ([1].set 0 ([1].getD 0 0 - 1)).sum < [1].sum) ∧
    (0 < [1].length ∧ 1 ≤ 1 ∧ 1 ≤ [1].getD 0 0 ∧
      ([1].set 0 ([1].getD 0 0 - 1)).sum < [1].sum) ∧
    (0 < [1].length ∧ 1 ≤ 1 ∧ 1 ≤ [1].getD 0 0 ∧
      ([1].set 0 ([1].getD 0 0 - 1)).sum < [1].sum) :=
  ⟨(returned_moves_legal [1] true 0 1 ℤ (fun _ _ _ => 0) (fun _ => 0) 1
      (by decide)).1 rfl,
   (returned_moves_legal [1] true 0 1 ℤ (fun _ _ _ => 0) (fun _ => 0) 1
      (by decide)).2.1 rfl,
   (returned_moves_legal [1] true 0 1 ℤ (fun _ _ _ => 0) (fun _ => 0) 1
      (by decide)).2.2 rfl⟩

/-- C8: `minimax([1,3,5,7], True)` returns the value -1: the nim-sum
1 xor 3 xor 5 xor 7 is 0, so the position is a loss for the first mover. -/
theorem minimax_1357_loses :
    nimSum [1, 3, 5, 7] = 0 ∧ (minimax [1, 3, 5, 7] true).1 = EInt.ofInt (-1) := by
  have h0 : nimSum [1, 3, 5, 7] = 0 := by decide
  refine ⟨h0, ?_⟩
  rw [minimax_value, h0]
  simp

/-- C9: in every execution of `mcts` (any key interpretation of the UCB1
score, any oracle, state and iteration count), the UCB1 selection is only
ever evaluated at nodes whose children all have at least one visit and
whose own visit count is positive, so the score's division and logarithm
are always defined: the embedded error for an undefined UCB1 score — and
every other internal error — never surfaces; the only possible failure is
the `max` on an empty children list of C2. -/
theorem mcts_no_uct_error {K : Type} [LinearOrder K] (key : ℤ → ℕ → ℕ → K)
    (oracle : ℕ → ℕ) (state : List ℕ) (k : ℕ) (e : MErr)
    (h : mcts key oracle state k = Except.error e) : e = MErr.emptyMax :=
  mcts_error_eq h

/-- Witness for the C9 theorem at the terminal state `[0]` with 0
iterations, where `mcts` fails with precisely the empty-`max` error. -/
theorem mcts_no_uct_error_witness : MErr.emptyMax = MErr.emptyMax :=
  mcts_no_uct_error (fun _ _ _ => (0 : ℤ)) (fun _ => 0) [0] 0 MErr.emptyMax rfl

/-- C10: termination of the solvers: every generated move strictly
decreases the total token count, so the recursion of `minimax`,
`minimax_ab`, and the random rollout is well-founded on the sum of the
piles: any fuel exceeding that sum produces the fuel-free result, and the
rollout completes normally for every sequence of random choices. -/
theorem solvers_terminate (s : List ℕ) (x : ℕ × ℕ × List ℕ) (m : Bool)
    (alpha beta : EInt) (oracle : ℕ → ℕ) (idx f1 f2 : ℕ) (flag : Bool)
    (hx : x ∈ get_successors s) (h1 : s.sum < f1) (h2 : s.sum < f2) :
    x.2.2.sum < s.sum ∧
    minimaxF f1 s m = minimax s m ∧
    minimax_abF f1 s alpha beta m = minimax_ab s alpha beta m ∧
    simulateF oracle idx f1 s flag = simulateF oracle idx f2 s flag ∧
    (∃ r idx', simulateF oracle idx f1 s flag = .ok (r, idx')) :=
  ⟨sum_lt_of_mem_get_successors hx, minimaxF_eq_minimax h1,
   minimax_abF_eq_minimax_ab h1, simulateF_fuel_eq oracle s.sum le_rfl h1 h2,
   simulateF_ok oracle s.sum le_rfl h1⟩

/-- Witness for the C10 theorem at the state `[1]`, its move `(0,1,[0])`,
and fuels 2 and 3. -/
theorem solvers_terminate_witness :
    ([0] : List ℕ).sum < [1].sum ∧
    minimaxF 2 [1] true = minimax [1] true ∧
    minimax_abF 2 [1] ⊥ ⊤ true = minimax_ab [1] ⊥ ⊤ true ∧
    simulateF (fun _ => 0) 0 2 [1] true = simulateF (fun _ => 0) 0 3 [1] true ∧
    (∃ r idx', simulateF (fun _ => 0) 0 2 [1] true = .ok (r, idx')) :=
  solvers_terminate [1] (0, 1, [0]) true ⊥ ⊤ (fun _ => 0) 0 2 3 true
    (by decide) (by decide) (by decide)

end NimGame